import Mathlib

/-!
Verification development for the batching / pipeline-engine core of the
`pulse` client library.  The repository ships only its test suite, so every
definition below is modelled from the specification (each doc comment says
which missing module it models), and the theorems check the spec's claims
against those models and against the concrete expectations recorded in the
tests.
-/

namespace Pulse

/-- Fuel-indexed worker for `chunkEvery`; the fuel only bounds the
recursion depth (any fuel at least the list length gives the same
answer), keeping the definition structurally recursive. -/
def chunkEveryAux {α : Type} (half : Nat) : Nat → List α → List (List α)
  | _, [] => []
  | 0, _ :: _ => []
  | fuel + 1, x :: rest =>
    if half = 0 then [x :: rest]
    else (x :: rest).take half :: chunkEveryAux half fuel ((x :: rest).drop half)

/-- Modelled from the spec: the chunk splitter used by the missing module
`pulse/core/batching.py`.  It cuts a list into consecutive slices of
`half` elements (`items[i:i+half]` for `i = 0, half, 2*half, ...`); the
last slice may be shorter, and an empty input yields no slices.  The
`half = 0` branch is a guard that the Python code never reaches (its
slicing step is always positive). -/
def chunkEvery {α : Type} (half : Nat) (xs : List α) : List (List α) :=
  chunkEveryAux half xs.length xs

/-- Modelled from the spec: `_make_self_chunks` of the missing
`pulse/core/batching.py`.  A list that fits under the `maxItems` limit is
kept whole; otherwise it is split into consecutive `halfChunk`-sized
chunks (the last one possibly shorter). -/
def makeSelfChunks {α : Type} (maxItems halfChunk : Nat) (items : List α) :
    List (List α) :=
  if items.length ≤ maxItems then [items] else chunkEvery halfChunk items

/-- One unit of remote cross-similarity work: a chunk of A, a chunk of B,
and the forwarded output-mode flag. -/
structure CrossBody (α : Type) where
  set_a : List α
  set_b : List α
  flatten : Bool
deriving DecidableEq

/-- Modelled from the spec: the per-side partitioning used for
cross-similarity.  A side of length at most `halfChunk` stays whole;
otherwise it is split into `halfChunk`-sized chunks. -/
def crossSideChunks {α : Type} (halfChunk : Nat) (xs : List α) :
    List (List α) :=
  if xs.length ≤ halfChunk then [xs] else chunkEvery halfChunk xs

/-- Modelled from the spec: the chunk plan the body builder uses for a
cross-similarity request over lists `a` and `b`.  If the combined length
fits under `maxItems` both sides stay whole (one body); otherwise each
side is partitioned independently by `crossSideChunks`. -/
def crossChunksPlan {α : Type} (maxItems halfChunk : Nat) (a b : List α) :
    List (List α) × List (List α) :=
  if a.length + b.length ≤ maxItems then ([a], [b])
  else (crossSideChunks halfChunk a, crossSideChunks halfChunk b)

/-- Modelled from the spec: `_make_cross_bodies` of the missing
`pulse/core/batching.py`.  One body per pair in the cartesian product of
A's chunks and B's chunks, every body carrying the same `flatten` flag.
When the combined input fits under the limit the plan is `([a], [b])`, so
exactly the single body `(a, b, flatten)` is emitted. -/
def makeCrossBodies {α : Type} (maxItems halfChunk : Nat) (a b : List α)
    (flatten : Bool) : List (CrossBody α) :=
  let plan := crossChunksPlan maxItems halfChunk a b
  plan.1.flatMap (fun ca => plan.2.map (fun cb => CrossBody.mk ca cb flatten))

/-- The chunk count claimed by the spec: one chunk for a side of length at
most `halfChunk`, else `ceil(n / halfChunk)`. -/
def chunksCount (halfChunk n : Nat) : Nat :=
  if n ≤ halfChunk then 1 else (n + halfChunk - 1) / halfChunk

/-- One pending rectangular write of a block result into the output
matrix: destination offsets, extent, and the block's entries. -/
structure BlockWrite where
  row0 : Nat
  col0 : Nat
  nrows : Nat
  ncols : Nat
  entry : Nat → Nat → ℚ

/-- Whether a pending write covers output cell `(r, c)`. -/
def BlockWrite.covers (w : BlockWrite) (r c : Nat) : Bool :=
  decide (w.row0 ≤ r) && decide (r < w.row0 + w.nrows) &&
    decide (w.col0 ≤ c) && decide (c < w.col0 + w.ncols)

/-- Perform one rectangular write on a matrix represented as a total
function on indices. -/
def applyWrite (m : Nat → Nat → ℚ) (w : BlockWrite) : Nat → Nat → ℚ :=
  fun r c =>
    if w.covers r c then w.entry (r - w.row0) (c - w.col0) else m r c

/-- Perform a sequence of writes, later writes overriding earlier ones. -/
def applyWrites (m : Nat → Nat → ℚ) (ws : List BlockWrite) :
    Nat → Nat → ℚ :=
  ws.foldl applyWrite m

/-- Cumulative row/column offset of chunk `i`: total length of the chunks
before it (the `offsets` array the stitcher derives). -/
def chunkOffset {α : Type} : List (List α) → Nat → Nat
  | _, 0 => 0
  | [], _ + 1 => 0
  | c :: t, n + 1 => c.length + chunkOffset t n

/-- Length of chunk `i` (zero out of range). -/
def chunkLen {α : Type} (chunks : List (List α)) (i : Nat) : Nat :=
  (chunks.getD i []).length

/-- Upper-triangle chunk-pair enumeration `(i, j)` with `i ≤ j`, in the
order the body builder issues self-similarity bodies. -/
def selfPairs (k : Nat) : List (Nat × Nat) :=
  (List.range k).flatMap
    (fun i => ((List.range k).drop i).map (fun j => (i, j)))

/-- Full cartesian chunk-pair enumeration, in the order the body builder
issues cross-similarity bodies. -/
def crossPairs (ka kb : Nat) : List (Nat × Nat) :=
  (List.range ka).flatMap
    (fun i => (List.range kb).map (fun j => (i, j)))

/-- The write that places the block result for chunk pair `(i, j)` at the
row span of `chunksA`'s chunk `i` and the column span of `chunksB`'s
chunk `j`. -/
def mkWrite {α : Type} (chunksA chunksB : List (List α)) (i j : Nat)
    (blk : Nat → Nat → ℚ) : BlockWrite :=
  ⟨chunkOffset chunksA i, chunkOffset chunksB j,
    chunkLen chunksA i, chunkLen chunksB j, blk⟩

/-- Modelled from the spec: the self-mode placement plan of
`_stitch_results` in the missing `pulse/core/batching.py`.  Block results
are paired with the upper-triangle chunk pairs in enumeration order; each
is placed at rows-of-chunk-i × cols-of-chunk-j, and for `i ≠ j` the
transposed block is additionally placed at the mirrored span. -/
def selfWrites {α : Type} (chunks : List (List α))
    (results : List (Nat → Nat → ℚ)) : List BlockWrite :=
  ((selfPairs chunks.length).zip results).flatMap (fun pr =>
    if pr.1.1 = pr.1.2 then [mkWrite chunks chunks pr.1.1 pr.1.2 pr.2]
    else [mkWrite chunks chunks pr.1.1 pr.1.2 pr.2,
          mkWrite chunks chunks pr.1.2 pr.1.1 (fun r c => pr.2 c r)])

/-- Modelled from the spec: the cross-mode placement plan of
`_stitch_results`: block results paired with the cartesian chunk pairs in
enumeration order, each placed directly with no mirroring. -/
def crossWrites {α : Type} (chunksA chunksB : List (List α))
    (results : List (Nat → Nat → ℚ)) : List BlockWrite :=
  ((crossPairs chunksA.length chunksB.length).zip results).map
    (fun pr => mkWrite chunksA chunksB pr.1.1 pr.1.2 pr.2)

/-- The stitched full matrix: its shape and its entries. -/
structure StitchedMatrix where
  nrows : Nat
  ncols : Nat
  entry : Nat → Nat → ℚ

/-- Modelled from the spec: `_stitch_results` of the missing
`pulse/core/batching.py`.  It recomputes the chunk partitioning the body
builder used for `fullA`/`fullB`, detects self mode by comparing the two
full lists, and fills a `len(fullA) × len(fullB)` zero matrix with the
block results (mirroring the off-diagonal blocks in self mode). -/
def stitchResults {α : Type} [DecidableEq α] (maxItems halfChunk : Nat)
    (results : List (Nat → Nat → ℚ)) (fullA fullB : List α) :
    StitchedMatrix :=
  if fullA = fullB then
    let chunks := makeSelfChunks maxItems halfChunk fullA
    ⟨fullA.length, fullA.length,
      applyWrites (fun _ _ => 0) (selfWrites chunks results)⟩
  else
    let plan := crossChunksPlan maxItems halfChunk fullA fullB
    ⟨fullA.length, fullB.length,
      applyWrites (fun _ _ => 0) (crossWrites plan.1 plan.2 results)⟩

/-- How many of the pending writes touch cell `(r, c)`: the spec demands
this be exactly one for every cell of the output. -/
def writeCount (ws : List BlockWrite) (r c : Nat) : Nat :=
  (ws.filter (fun w => w.covers r c)).length

/-- The synthetic cross-mode block results of the tests (3×3 chunk grid,
row-major): the block for chunk pair `(i, j)` is constantly
`(i+1)*10 + (j+1)`. -/
def crossDemoBlocks : List (Nat → Nat → ℚ) :=
  [fun _ _ => 11, fun _ _ => 12, fun _ _ => 13,
   fun _ _ => 21, fun _ _ => 22, fun _ _ => 23,
   fun _ _ => 31, fun _ _ => 32, fun _ _ => 33]

/-- The synthetic self-mode block results of the tests (upper triangle of
a 3-chunk split, in enumeration order `(0,0),(0,1),(0,2),(1,1),(1,2),
(2,2)`). -/
def selfDemoBlocks : List (Nat → Nat → ℚ) :=
  [fun _ _ => 11, fun _ _ => 12, fun _ _ => 13,
   fun _ _ => 22, fun _ _ => 23, fun _ _ => 33]

/-- Modelled from the spec: a pipeline process of the missing
`pulse/analysis/processes.py`: an identity, declared dependency
identities, a serialized public configuration (internal fields such as
call counters are excluded), and the run computation.  The Python
process mutates an internal call counter; here the engine threads that
counter explicitly, so `run` receives the prior invocation count and
the context lookup of previously produced results. -/
structure Proc (ρ : Type) where
  id : String
  deps : List String
  config : String
  run : Nat → (String → Option ρ) → ρ

/-- Modelled from the spec: the cache fingerprint — a deterministic key
over the dataset content, the process identity and its public
configuration. -/
def fingerprint {ρ : Type} (dataset : List String) (p : Proc ρ) : String :=
  String.intercalate "|" (dataset ++ [p.id, p.config])

/-- The engine's mutable state: the persistent cache (fingerprint →
stored result) and the per-process invocation counters (the `_call_count`
fields of the Python processes, threaded explicitly). -/
structure EngineState (ρ : Type) where
  cache : List (String × ρ)
  counts : String → Nat

/-- A fresh engine: empty cache, all counters zero. -/
def emptyEngineState (ρ : Type) : EngineState ρ :=
  ⟨[], fun _ => 0⟩

/-- Look a fingerprint up in the cache. -/
def cacheLookup {ρ : Type} (key : String) (cache : List (String × ρ)) :
    Option ρ :=
  (cache.find? (fun kv => kv.1 = key)).map Prod.snd

/-- The pipeline context visible to a process: identity → prior result. -/
def ctxOf {ρ : Type} (results : List (String × ρ)) :
    String → Option ρ :=
  fun name => (results.find? (fun kv => kv.1 = name)).map Prod.snd

/-- Modelled from the spec: one engine step of the missing
`pulse/analysis/analyzer.py`.  With caching enabled and a fingerprint
hit, the stored result is reused and `run` is not invoked; otherwise
`run` is invoked (bumping the process's counter), and the result is
stored under the fingerprint when caching is enabled. -/
def stepProc {ρ : Type} (dataset : List String) (useCache : Bool)
    (acc : EngineState ρ × List (String × ρ)) (p : Proc ρ) :
    EngineState ρ × List (String × ρ) :=
  match (if useCache then
      cacheLookup (fingerprint dataset p) acc.1.cache else none) with
  | some rv => (acc.1, acc.2 ++ [(p.id, rv)])
  | none =>
      let n := acc.1.counts p.id
      let rv := p.run n (ctxOf acc.2)
      let newCache := if useCache then
          (fingerprint dataset p, rv) :: acc.1.cache
        else acc.1.cache
      (⟨newCache, fun s => if s = p.id then n + 1 else acc.1.counts s⟩,
        acc.2 ++ [(p.id, rv)])

/-- Execute the resolved process list in order, starting from a fresh
result context. -/
def runProcs {ρ : Type} (dataset : List String) (useCache : Bool)
    (ps : List (Proc ρ)) (st : EngineState ρ) :
    EngineState ρ × List (String × ρ) :=
  ps.foldl (stepProc dataset useCache) (st, [])

/-- Modelled from the spec: dependency resolution of the missing
`pulse/analysis/analyzer.py`.  Before a process is appended, each of its
declared dependency identities that is not already present is
instantiated from the registry of default-configured variants and
inserted first (the registry's defaults — e.g. ThemeGeneration — are
dependency-free, so one level of injection realizes the transitive
closure for the variants modelled here). -/
def addWithDeps {ρ : Type} (registry : String → Option (Proc ρ))
    (acc : List (Proc ρ)) (p : Proc ρ) : List (Proc ρ) :=
  let acc2 := p.deps.foldl (fun a d =>
    if a.any (fun q => q.id = d) then a
    else match registry d with
      | some q => a ++ [q]
      | none => a) acc
  acc2 ++ [p]

/-- Resolve the caller's explicit process list into execution order. -/
def resolveProcs {ρ : Type} (registry : String → Option (Proc ρ))
    (ps : List (Proc ρ)) : List (Proc ρ) :=
  ps.foldl (addWithDeps registry) []

/-- Modelled from the spec: the pipeline engine (Analyzer) — dataset,
explicit processes, the registry of default-constructible variants, and
the caching flag. -/
structure Analyzer (ρ : Type) where
  dataset : List String
  processes : List (Proc ρ)
  registry : String → Option (Proc ρ)
  useCache : Bool

/-- Modelled from the spec: `Analyzer.run()` — resolve the dependency
graph and execute each process in order, consulting the cache. -/
def Analyzer.run {ρ : Type} (a : Analyzer ρ) (st : EngineState ρ) :
    EngineState ρ × List (String × ρ) :=
  runProcs a.dataset a.useCache (resolveProcs a.registry a.processes) st

/-- Modelled from the spec: `clear_cache()` — removes all persisted
entries; the processes' internal counters are untouched. -/
def clearCache {ρ : Type} (st : EngineState ρ) : EngineState ρ :=
  ⟨[], st.counts⟩

/-- Result-bundle attribute access; `none` models the AttributeError
raised for an identity that was never executed. -/
def getAttr {ρ : Type} (results : List (String × ρ)) (name : String) :
    Option ρ :=
  (results.find? (fun kv => kv.1 = name)).map Prod.snd

/-- Result values of the built-in theme processes. -/
inductive AnalysisValue where
  | themes (ts : List String)
  | allocation (ts : List String)
deriving DecidableEq

/-- Modelled from the spec: the default-configured ThemeGeneration
process; its remote call is abstracted as a function `g` from the
dataset to the generated theme labels. -/
def themeGenerationProc (g : List String → List String)
    (dataset : List String) : Proc AnalysisValue :=
  ⟨"theme_generation", [], "default",
    fun _ _ => AnalysisValue.themes (g dataset)⟩

/-- Modelled from the spec: ThemeAllocation without static themes takes
its themes from the theme_generation result found in the context. -/
def themeAllocationProc : Proc AnalysisValue :=
  ⟨"theme_allocation", ["theme_generation"], "default",
    fun _ ctx =>
      match ctx "theme_generation" with
      | some (AnalysisValue.themes ts) => AnalysisValue.allocation ts
      | _ => AnalysisValue.allocation []⟩

/-- The registry of default-constructible variants consulted for missing
dependencies. -/
def themeRegistry (g : List String → List String)
    (dataset : List String) : String → Option (Proc AnalysisValue) :=
  fun name =>
    if name = "theme_generation" then
      some (themeGenerationProc g dataset)
    else none

/-- The counting dummy process of the caching tests: dependency-free, and
its result reflects its prior invocation count (`result_{n+1}` in the
Python test). -/
def demoProc : Proc Nat :=
  ⟨"dummy", [], "cfg", fun n _ => n⟩

/-- Modelled from the spec: `ThemeAllocationResult` of the missing
`pulse/analysis/results.py`: input texts, theme labels, fallback
assignments, the texts × themes similarity matrix, and the single-label
threshold.  Similarity scores are rationals (the Python floats). -/
structure ThemeAllocationResult where
  texts : List String
  themes : List String
  assignments : List Nat
  similarity : List (List ℚ)
  single_label : Bool
  threshold : ℚ

/-- Index of a row's maximal score (first occurrence wins ties) — the
`argmax` the allocation helpers use. -/
def rowArgmax (row : List ℚ) : Nat :=
  (List.range row.length).foldl
    (fun best j => if row.getD best 0 < row.getD j 0 then j else best) 0

/-- Modelled from the tests: `assign_single` at one text — the argmax
theme of that text's similarity row when the score meets the threshold,
else `None`. -/
def assignSingleAt (res : ThemeAllocationResult) (t : Nat) :
    Option String :=
  let row := res.similarity.getD t []
  if res.threshold ≤ row.getD (rowArgmax row) 0 then
    res.themes[rowArgmax row]?
  else none

/-- `assign_single`: one entry per input text, indexed by the texts. -/
def assignSingle (res : ThemeAllocationResult) :
    List (String × Option String) :=
  (List.range res.texts.length).map
    (fun t => (res.texts.getD t "", assignSingleAt res t))

/-- Insert an index into an index list kept sorted by descending score. -/
def insertDesc (row : List ℚ) (j : Nat) : List Nat → List Nat
  | [] => [j]
  | i :: rest =>
    if row.getD i 0 < row.getD j 0 then j :: i :: rest
    else i :: insertDesc row j rest

/-- All row indices sorted by descending score (insertion sort). -/
def sortIdxDesc (row : List ℚ) : List Nat :=
  (List.range row.length).foldr (insertDesc row) []

/-- Modelled from the tests: `assign_multi(k)` at one text — the top-`k`
themes of that text's row in descending score order. -/
def assignMultiAt (res : ThemeAllocationResult) (k t : Nat) :
    List String :=
  ((sortIdxDesc (res.similarity.getD t [])).take k).map
    (fun j => res.themes.getD j "")

/-- `assign_multi(k)`: one entry per input text, indexed by the texts. -/
def assignMulti (res : ThemeAllocationResult) (k : Nat) :
    List (String × List String) :=
  (List.range res.texts.length).map
    (fun t => (res.texts.getD t "", assignMultiAt res k t))

/-- An outgoing HTTP request: target host and header list. -/
structure HttpRequest where
  host : String
  headers : List (String × String)
deriving DecidableEq

/-- Modelled from the spec/tests: the token state of the missing
`pulse/auth.py` `AuthorizationCodePKCEAuth` — the host of the configured
core-API audience, the cached access token, and its expiry instant in
seconds (the implementation subtracts a 60-second skew when storing
it). -/
structure PkceAuthState where
  audienceHost : String
  accessToken : Option String
  expiresAt : ℚ
deriving DecidableEq

/-- Modelled from the spec/tests: one `auth_flow` step.  `now` is the
current time; `freshTok` and `expiresIn` are the token endpoint's
response, consumed only if a token request actually happens.  Returns
the new state, the forwarded request, and the number of token-endpoint
calls made (0 or 1).  Requests to a host other than the audience host
pass through untouched. -/
def authFlow (st : PkceAuthState) (req : HttpRequest) (now : ℚ)
    (freshTok : String) (expiresIn : ℚ) :
    PkceAuthState × HttpRequest × Nat :=
  if req.host = st.audienceHost then
    match st.accessToken with
    | some tok =>
        if now < st.expiresAt then
          (st, ⟨req.host,
            req.headers ++ [("Authorization", "Bearer " ++ tok)]⟩, 0)
        else
          (⟨st.audienceHost, some freshTok, now + expiresIn - 60⟩,
            ⟨req.host,
              req.headers ++ [("Authorization", "Bearer " ++ freshTok)]⟩, 1)
    | none =>
        (⟨st.audienceHost, some freshTok, now + expiresIn - 60⟩,
          ⟨req.host,
            req.headers ++ [("Authorization", "Bearer " ++ freshTok)]⟩, 1)
  else (st, req, 0)

end Pulse

namespace Pulse

theorem chunkEveryAux_nil {α : Type} (half fuel : Nat) :
    chunkEveryAux half fuel ([] : List α) = [] := by
  cases fuel <;> rfl

theorem chunkEveryAux_congr {α : Type} (half : Nat) (h0 : half ≠ 0) :
    ∀ (fuel fuel' : Nat) (xs : List α), xs.length ≤ fuel →
      xs.length ≤ fuel' →
      chunkEveryAux half fuel xs = chunkEveryAux half fuel' xs := by
  intro fuel
  induction fuel with
  | zero =>
    intro fuel' xs h h'
    have hx : xs = [] := by
      cases xs with
      | nil => rfl
      | cons y t => simp at h
    subst hx
    rw [chunkEveryAux_nil, chunkEveryAux_nil]
  | succ f ih =>
    intro fuel' xs h h'
    cases xs with
    | nil => rw [chunkEveryAux_nil, chunkEveryAux_nil]
    | cons x rest =>
      cases fuel' with
      | zero => simp at h'
      | succ f' =>
        simp only [chunkEveryAux, if_neg h0]
        congr 1
        apply ih
        · simp only [List.length_drop, List.length_cons]
          simp only [List.length_cons] at h
          omega
        · simp only [List.length_drop, List.length_cons]
          simp only [List.length_cons] at h'
          omega

theorem chunkEvery_nil {α : Type} (half : Nat) :
    chunkEvery half ([] : List α) = [] := rfl

theorem chunkEvery_cons_eq {α : Type} (half : Nat) (xs : List α)
    (h : xs ≠ []) (h0 : half ≠ 0) :
    chunkEvery half xs = xs.take half :: chunkEvery half (xs.drop half) := by
  unfold chunkEvery
  cases xs with
  | nil => exact absurd rfl h
  | cons x rest =>
    simp only [List.length_cons, chunkEveryAux, if_neg h0]
    congr 1
    apply chunkEveryAux_congr half h0
    · simp only [List.length_drop, List.length_cons]
      omega
    · exact Nat.le_refl _

theorem chunkEvery_length {α : Type} (half : Nat) (hh : 0 < half)
    (xs : List α) :
    (chunkEvery half xs).length = (xs.length + half - 1) / half := by
  generalize hn : xs.length = n
  induction n using Nat.strong_induction_on generalizing xs with
  | _ n ih =>
    by_cases he : xs = []
    · subst he
      simp only [List.length_nil] at hn
      subst hn
      rw [chunkEvery_nil]
      simp only [List.length_nil]
      exact (Nat.div_eq_of_lt (by omega)).symm
    · have h0 : half ≠ 0 := by omega
      have hx : 0 < xs.length := List.length_pos.mpr he
      rw [chunkEvery_cons_eq half xs he h0]
      have hdrop : (xs.drop half).length = xs.length - half := by
        simp [List.length_drop]
      have hlt : xs.length - half < n := by omega
      have ihd := ih (xs.length - half) hlt (xs.drop half) hdrop
      simp only [List.length_cons, ihd, hdrop]
      subst hn
      by_cases hle : xs.length ≤ half
      · have h1 : xs.length - half = 0 := by omega
        rw [h1]
        have hz : (0 + half - 1) / half = 0 :=
          Nat.div_eq_of_lt (by omega)
        have ho : (xs.length + half - 1) / half = 1 := by
          apply Nat.div_eq_of_lt_le
          · simpa using (by omega : half ≤ xs.length + half - 1)
          · omega
        omega
      · have hsplit : xs.length + half - 1 = (xs.length - half + half - 1) + half := by
          omega
        rw [hsplit, Nat.add_div_right _ hh]

theorem chunkEvery_flatten {α : Type} (half : Nat) (hh : 0 < half)
    (xs : List α) :
    (chunkEvery half xs).flatten = xs := by
  generalize hn : xs.length = n
  induction n using Nat.strong_induction_on generalizing xs with
  | _ n ih =>
    by_cases he : xs = []
    · subst he
      simp [chunkEvery_nil]
    · have h0 : half ≠ 0 := by omega
      have hx : 0 < xs.length := List.length_pos.mpr he
      rw [chunkEvery_cons_eq half xs he h0]
      have hdrop : (xs.drop half).length = xs.length - half := by
        simp [List.length_drop]
      have hlt : xs.length - half < n := by omega
      have ihd := ih (xs.length - half) hlt (xs.drop half) hdrop
      simp [ihd]

theorem chunkEvery_mem_sizes {α : Type} (half : Nat) (hh : 0 < half)
    (xs : List α) :
    ∀ c ∈ chunkEvery half xs, c ≠ [] ∧ c.length ≤ half := by
  generalize hn : xs.length = n
  induction n using Nat.strong_induction_on generalizing xs with
  | _ n ih =>
    by_cases he : xs = []
    · subst he
      simp [chunkEvery_nil]
    · have h0 : half ≠ 0 := by omega
      have hx : 0 < xs.length := List.length_pos.mpr he
      rw [chunkEvery_cons_eq half xs he h0]
      intro c hc
      rcases List.mem_cons.mp hc with hc1 | hc2
      · subst hc1
        refine ⟨?_, by simp [List.length_take]⟩
        intro habs
        have hcl : (xs.take half).length = 0 := by rw [habs]; rfl
        rw [List.length_take] at hcl
        rcases Nat.min_eq_zero_iff.mp hcl with h' | h' <;> omega
      · have hdrop : (xs.drop half).length = xs.length - half := by
          simp [List.length_drop]
        have hlt : xs.length - half < n := by omega
        exact ih (xs.length - half) hlt (xs.drop half) hdrop c hc2

theorem chunkEvery_getD_len {α : Type} (half : Nat) (hh : 0 < half)
    (xs : List α) (i : Nat) (hi : i + 1 < (chunkEvery half xs).length) :
    ((chunkEvery half xs).getD i []).length = half := by
  generalize hn : xs.length = n
  induction n using Nat.strong_induction_on generalizing xs i with
  | _ n ih =>
    by_cases he : xs = []
    · subst he
      rw [chunkEvery_nil] at hi
      simp at hi
    · have h0 : half ≠ 0 := by omega
      have hx : 0 < xs.length := List.length_pos.mpr he
      rw [chunkEvery_cons_eq half xs he h0] at hi ⊢
      match i with
      | 0 =>
        simp only [List.getD_cons_zero, List.length_take]
        simp only [List.length_cons] at hi
        have hrest : chunkEvery half (xs.drop half) ≠ [] := by
          intro habs
          rw [habs] at hi
          simp at hi
        have hdropne : xs.drop half ≠ [] := by
          intro habs
          rw [habs, chunkEvery_nil] at hrest
          exact hrest rfl
        have : 0 < (xs.drop half).length := List.length_pos.mpr hdropne
        rw [List.length_drop] at this
        omega
      | Nat.succ j =>
        simp only [List.getD_cons_succ]
        simp only [List.length_cons] at hi
        have hdrop : (xs.drop half).length = xs.length - half := by
          simp [List.length_drop]
        have hlt : xs.length - half < n := by omega
        exact ih (xs.length - half) hlt (xs.drop half) j (by omega) hdrop

theorem crossSideChunks_length {α : Type} (halfChunk : Nat)
    (hh : 0 < halfChunk) (xs : List α) :
    (crossSideChunks halfChunk xs).length = chunksCount halfChunk xs.length := by
  unfold crossSideChunks chunksCount
  by_cases hle : xs.length ≤ halfChunk
  · simp [hle]
  · simp [hle, chunkEvery_length halfChunk hh xs]

theorem sum_map_const_nat {A : Type} (l : List A) (k : Nat) :
    (l.map (fun _ => k)).sum = l.length * k := by
  induction l with
  | nil => simp
  | cons a t ih =>
    simp only [List.map_cons, List.sum_cons, List.length_cons, ih]
    ring

/-- **C1** (cross-similarity body building).  If `len(a) + len(b) ≤ maxItems`
the builder emits exactly one body `(a, b, flatten)` with no splitting;
otherwise the number of bodies equals `chunks(a) × chunks(b)`, where
`chunks(X) = 1` if `len(X) ≤ halfChunk` else `ceil(len(X)/halfChunk)`;
and every body carries the same `flatten` flag. -/
theorem claim_C1_cross_bodies {α : Type} (maxItems halfChunk : Nat)
    (hhalf : 0 < halfChunk) (a b : List α) (flatten : Bool) :
    (a.length + b.length ≤ maxItems →
        makeCrossBodies maxItems halfChunk a b flatten
          = [CrossBody.mk a b flatten]) ∧
    (maxItems < a.length + b.length →
        (makeCrossBodies maxItems halfChunk a b flatten).length
          = chunksCount halfChunk a.length * chunksCount halfChunk b.length) ∧
    (∀ body ∈ makeCrossBodies maxItems halfChunk a b flatten,
        body.flatten = flatten) := by
  refine ⟨?_, ?_, ?_⟩
  · intro hle
    simp [makeCrossBodies, crossChunksPlan, hle]
  · intro hgt
    have hnle : ¬ (a.length + b.length ≤ maxItems) := by omega
    simp only [makeCrossBodies, crossChunksPlan, if_neg hnle]
    rw [List.length_flatMap]
    have hmap : (crossSideChunks halfChunk a).map
        (fun ca => ((crossSideChunks halfChunk b).map
          (fun cb => CrossBody.mk ca cb flatten)).length)
        = (crossSideChunks halfChunk a).map
            (fun _ => (crossSideChunks halfChunk b).length) := by
      apply List.map_congr_left
      intro ca _
      simp
    simp only [Function.comp_def]
    rw [hmap, sum_map_const_nat,
        crossSideChunks_length halfChunk hhalf a,
        crossSideChunks_length halfChunk hhalf b]
  · intro body hbody
    simp only [makeCrossBodies, crossChunksPlan] at hbody
    by_cases hle : a.length + b.length ≤ maxItems
    · simp [hle] at hbody
      rw [hbody]
    · simp [hle, List.mem_flatMap, List.mem_map] at hbody
      obtain ⟨ca, _, cb, _, hmk⟩ := hbody
      rw [← hmk]

/-- Witness for C1 at the concrete configuration of the tests
(`MAX = 5`, `HALF = 2`, `|a| = |b| = 7`): sixteen bodies. -/
theorem claim_C1_cross_bodies_witness :
    (makeCrossBodies 5 2 (List.range 7) (List.range 7) false).length = 16 := by
  have h2 := (claim_C1_cross_bodies 5 2 (by decide) (List.range 7)
      (List.range 7) false).2.1 (by decide)
  rw [h2]
  decide

/-- **C2** (self-chunking).  A list within the limit is returned as one
chunk; a longer list is cut into `ceil(len/HALF)` consecutive chunks, each
of size `HALF` except possibly the last (never empty, never larger), whose
concatenation restores the list. -/
theorem claim_C2_self_chunking {α : Type} (maxItems halfChunk : Nat)
    (hhalf : 0 < halfChunk) (L : List α) :
    (L.length ≤ maxItems → makeSelfChunks maxItems halfChunk L = [L]) ∧
    (maxItems < L.length →
        (makeSelfChunks maxItems halfChunk L).length
            = (L.length + halfChunk - 1) / halfChunk ∧
        (makeSelfChunks maxItems halfChunk L).flatten = L ∧
        (∀ c ∈ makeSelfChunks maxItems halfChunk L,
            c ≠ [] ∧ c.length ≤ halfChunk) ∧
        (∀ i, i + 1 < (makeSelfChunks maxItems halfChunk L).length →
            ((makeSelfChunks maxItems halfChunk L).getD i []).length
              = halfChunk)) := by
  constructor
  · intro hle
    simp [makeSelfChunks, hle]
  · intro hgt
    have hnle : ¬ (L.length ≤ maxItems) := by omega
    simp only [makeSelfChunks, if_neg hnle]
    exact ⟨chunkEvery_length halfChunk hhalf L,
      chunkEvery_flatten halfChunk hhalf L,
      chunkEvery_mem_sizes halfChunk hhalf L,
      fun i hi => chunkEvery_getD_len halfChunk hhalf L i hi⟩

/-- Witness for C2 at the tests' configuration (`MAX = 4`, `HALF = 2`,
`L = range 6`): three chunks that concatenate back to `L`. -/
theorem claim_C2_self_chunking_witness :
    (makeSelfChunks 4 2 (List.range 6)).length = 3 ∧
    (makeSelfChunks 4 2 (List.range 6)).flatten = List.range 6 := by
  have h := (claim_C2_self_chunking 4 2 (by decide) (List.range 6)).2
      (by decide)
  refine ⟨?_, h.2.1⟩
  rw [h.1]
  decide

theorem applyWrites_cons (m : Nat → Nat → ℚ) (w : BlockWrite)
    (ws : List BlockWrite) :
    applyWrites m (w :: ws) = applyWrites (applyWrite m w) ws := rfl

theorem applyWrites_no_cover (m : Nat → Nat → ℚ) (ws : List BlockWrite)
    (r c : Nat) (h : ∀ w ∈ ws, w.covers r c = false) :
    applyWrites m ws r c = m r c := by
  induction ws generalizing m with
  | nil => rfl
  | cons w rest ih =>
    rw [applyWrites_cons]
    rw [ih (applyWrite m w) (fun w' hw' => h w' (List.mem_cons_of_mem _ hw'))]
    simp [applyWrite, h w (List.mem_cons_self _ _)]

theorem applyWrites_unique (m : Nat → Nat → ℚ) (ws : List BlockWrite)
    (r c : Nat) (v : ℚ)
    (hex : ∃ w ∈ ws, w.covers r c = true)
    (hval : ∀ w ∈ ws, w.covers r c = true →
        w.entry (r - w.row0) (c - w.col0) = v) :
    applyWrites m ws r c = v := by
  induction ws generalizing m with
  | nil =>
    obtain ⟨w, hw, _⟩ := hex
    simp at hw
  | cons w1 rest ih =>
    rw [applyWrites_cons]
    by_cases hrest : ∃ w ∈ rest, w.covers r c = true
    · exact ih (applyWrite m w1) hrest
        (fun w hw hc => hval w (List.mem_cons_of_mem _ hw) hc)
    · push_neg at hrest
      have hnone : ∀ w ∈ rest, w.covers r c = false := by
        intro w hw
        exact Bool.not_eq_true _ |>.mp (hrest w hw)
      rw [applyWrites_no_cover _ _ _ _ hnone]
      obtain ⟨w, hw, hcov⟩ := hex
      rcases List.mem_cons.mp hw with hh | hh
      · subst hh
        simp only [applyWrite, hcov, if_true]
        exact hval w (List.mem_cons_self _ _) hcov
      · exact absurd hcov (hrest w hh)

theorem chunkOffset_succ {α : Type} (chunks : List (List α)) (i : Nat)
    (hi : i < chunks.length) :
    chunkOffset chunks (i + 1) = chunkOffset chunks i + chunkLen chunks i := by
  induction chunks generalizing i with
  | nil => simp at hi
  | cons c t ih =>
    match i with
    | 0 => simp [chunkOffset, chunkLen]
    | Nat.succ j =>
      have hj : j < t.length := by
        simp only [List.length_cons] at hi
        omega
      simp only [chunkOffset, chunkLen, List.getD_cons_succ]
      have := ih j hj
      simp only [chunkLen] at this
      omega

theorem chunkOffset_le_succ {α : Type} (chunks : List (List α)) (i : Nat) :
    chunkOffset chunks i ≤ chunkOffset chunks (i + 1) := by
  induction chunks generalizing i with
  | nil =>
    match i with
    | 0 => exact Nat.le_refl _
    | Nat.succ j => simp [chunkOffset]
  | cons c t ih =>
    match i with
    | 0 => simp [chunkOffset]
    | Nat.succ j =>
      simp only [chunkOffset]
      exact Nat.add_le_add_left (ih j) _

theorem chunkOffset_mono {α : Type} (chunks : List (List α)) {i j : Nat}
    (h : i ≤ j) : chunkOffset chunks i ≤ chunkOffset chunks j := by
  induction j with
  | zero =>
    have : i = 0 := by omega
    subst this
    exact Nat.le_refl _
  | succ j ih =>
    rcases Nat.lt_or_ge i (j + 1) with h' | h'
    · exact Nat.le_trans (ih (by omega)) (chunkOffset_le_succ chunks j)
    · have : i = j + 1 := by omega
      subst this
      exact Nat.le_refl _

theorem chunkOffset_total {α : Type} (chunks : List (List α)) :
    chunkOffset chunks chunks.length = chunks.flatten.length := by
  induction chunks with
  | nil => rfl
  | cons c t ih =>
    simp only [List.length_cons, chunkOffset, List.flatten_cons,
      List.length_append, ih]

theorem chunk_index_unique {α : Type} (chunks : List (List α)) {i i' r : Nat}
    (hi : i < chunks.length) (hi' : i' < chunks.length)
    (h1 : chunkOffset chunks i ≤ r)
    (h2 : r < chunkOffset chunks i + chunkLen chunks i)
    (h3 : chunkOffset chunks i' ≤ r)
    (h4 : r < chunkOffset chunks i' + chunkLen chunks i') :
    i = i' := by
  rcases Nat.lt_trichotomy i i' with h | h | h
  · exfalso
    have hs : chunkOffset chunks (i + 1) ≤ chunkOffset chunks i' :=
      chunkOffset_mono chunks h
    rw [chunkOffset_succ chunks i hi] at hs
    omega
  · exact h
  · exfalso
    have hs : chunkOffset chunks (i' + 1) ≤ chunkOffset chunks i :=
      chunkOffset_mono chunks h
    rw [chunkOffset_succ chunks i' hi'] at hs
    omega

theorem chunk_index_exists {α : Type} (chunks : List (List α)) (r : Nat)
    (hr : r < chunks.flatten.length) :
    ∃ i, i < chunks.length ∧ chunkOffset chunks i ≤ r ∧
      r < chunkOffset chunks i + chunkLen chunks i := by
  induction chunks generalizing r with
  | nil => simp at hr
  | cons c t ih =>
    by_cases hc : r < c.length
    · refine ⟨0, by simp, ?_, ?_⟩
      · simp [chunkOffset]
      · simpa [chunkOffset, chunkLen] using hc
    · have hr' : r - c.length < t.flatten.length := by
        simp only [List.flatten_cons, List.length_append] at hr
        omega
      obtain ⟨i, hi, ha, hb⟩ := ih (r - c.length) hr'
      refine ⟨i + 1, by simpa using hi, ?_, ?_⟩
      · simp only [chunkOffset]
        omega
      · simp only [chunkOffset, chunkLen, List.getD_cons_succ] at hb ⊢
        omega

theorem crossSideChunks_flatten {α : Type} (halfChunk : Nat)
    (hh : 0 < halfChunk) (xs : List α) :
    (crossSideChunks halfChunk xs).flatten = xs := by
  unfold crossSideChunks
  by_cases hle : xs.length ≤ halfChunk
  · simp [hle]
  · simp [hle, chunkEvery_flatten halfChunk hh xs]

theorem makeSelfChunks_flatten {α : Type} (maxItems halfChunk : Nat)
    (hh : 0 < halfChunk) (xs : List α) :
    (makeSelfChunks maxItems halfChunk xs).flatten = xs := by
  unfold makeSelfChunks
  by_cases hle : xs.length ≤ maxItems
  · simp [hle]
  · simp [hle, chunkEvery_flatten halfChunk hh xs]

theorem flatMap_const_getElem? {A B : Type} (m : Nat) (f : A → List B)
    (hf : ∀ a, (f a).length = m) :
    ∀ (l : List A) (q r : Nat) (x : A), l[q]? = some x → r < m →
      (l.flatMap f)[q * m + r]? = (f x)[r]? := by
  intro l
  induction l with
  | nil =>
    intro q r x hx _
    simp at hx
  | cons a t ih =>
    intro q r x hx hr
    match q with
    | 0 =>
      simp only [List.getElem?_cons_zero, Option.some.injEq] at hx
      subst hx
      simp only [List.flatMap_cons, Nat.zero_mul, Nat.zero_add]
      rw [List.getElem?_append_left (by rw [hf a]; exact hr)]
    | Nat.succ p =>
      simp only [List.getElem?_cons_succ] at hx
      simp only [List.flatMap_cons]
      have harith : (p + 1) * m + r = (f a).length + (p * m + r) := by
        rw [hf a, Nat.succ_mul]
        omega
      rw [harith, List.getElem?_append_right (by omega),
        Nat.add_sub_cancel_left]
      exact ih p r x hx hr

theorem flatMap_const_getElem?_inv {A B : Type} (m : Nat) (hm : 0 < m)
    (f : A → List B) (hf : ∀ a, (f a).length = m) :
    ∀ (l : List A) (n : Nat) (x : B), (l.flatMap f)[n]? = some x →
      ∃ a, l[n / m]? = some a ∧ (f a)[n % m]? = some x := by
  intro l
  induction l with
  | nil =>
    intro n x h
    simp at h
  | cons a t ih =>
    intro n x h
    simp only [List.flatMap_cons] at h
    by_cases hn : n < m
    · rw [List.getElem?_append_left (by rw [hf a]; exact hn)] at h
      refine ⟨a, ?_, ?_⟩
      · rw [Nat.div_eq_of_lt hn]
        simp
      · rw [Nat.mod_eq_of_lt hn]
        exact h
    · push_neg at hn
      rw [List.getElem?_append_right (by rw [hf a]; exact hn), hf a] at h
      obtain ⟨a', h1, h2⟩ := ih (n - m) x h
      have hd : n / m = (n - m) / m + 1 := by
        conv_lhs => rw [show n = (n - m) + m by omega]
        rw [Nat.add_div_right _ hm]
      have hmo : n % m = (n - m) % m := by
        conv_lhs => rw [show n = (n - m) + m by omega]
        rw [Nat.add_mod_right]
      refine ⟨a', ?_, ?_⟩
      · rw [hd]
        simpa using h1
      · rw [hmo]
        exact h2

theorem crossPairs_getElem? (ka kb i j : Nat) (hi : i < ka) (hj : j < kb) :
    (crossPairs ka kb)[i * kb + j]? = some (i, j) := by
  unfold crossPairs
  rw [flatMap_const_getElem? kb _ (fun a => by simp) (List.range ka) i j i
    (List.getElem?_range hi) hj]
  rw [List.getElem?_map, List.getElem?_range hj]
  rfl

theorem crossPairs_getElem?_inv (ka kb : Nat) (hkb : 0 < kb) (n : Nat)
    (p : Nat × Nat) (h : (crossPairs ka kb)[n]? = some p) :
    p = (n / kb, n % kb) ∧ n / kb < ka ∧ n % kb < kb := by
  unfold crossPairs at h
  obtain ⟨a, h1, h2⟩ :=
    flatMap_const_getElem?_inv kb hkb _ (fun a => by simp)
      (List.range ka) n p h
  have hlt : n / kb < ka := by
    by_contra hc
    push_neg at hc
    rw [List.getElem?_eq_none (by simpa using hc)] at h1
    exact Option.noConfusion h1
  rw [List.getElem?_range hlt] at h1
  injection h1 with h1
  subst h1
  rw [List.getElem?_map, List.getElem?_range (Nat.mod_lt n hkb)] at h2
  simp only [Option.map_some', Option.some.injEq] at h2
  exact ⟨h2.symm, hlt, Nat.mod_lt n hkb⟩

theorem crossPairs_mem (ka kb : Nat) (p : Nat × Nat) :
    p ∈ crossPairs ka kb ↔ p.1 < ka ∧ p.2 < kb := by
  unfold crossPairs
  rw [List.mem_flatMap]
  constructor
  · rintro ⟨i, hi, hmem⟩
    rw [List.mem_map] at hmem
    obtain ⟨j, hj, rfl⟩ := hmem
    rw [List.mem_range] at hi hj
    exact ⟨hi, hj⟩
  · rintro ⟨h1, h2⟩
    refine ⟨p.1, by rw [List.mem_range]; exact h1, ?_⟩
    rw [List.mem_map]
    exact ⟨p.2, by rw [List.mem_range]; exact h2, by simp⟩

theorem crossPairs_nodup (ka kb : Nat) : (crossPairs ka kb).Nodup := by
  unfold crossPairs
  apply List.nodup_flatMap.mpr
  constructor
  · intro i _
    refine (List.nodup_range kb).map ?_
    intro x y hxy
    simpa using congrArg Prod.snd hxy
  · have hp : List.Pairwise (· < ·) (List.range ka) :=
      List.pairwise_lt_range ka
    apply hp.imp
    intro a b hab x hxa hxb
    rw [List.mem_map] at hxa hxb
    obtain ⟨ja, _, hja⟩ := hxa
    obtain ⟨jb, _, hjb⟩ := hxb
    rw [← hja] at hjb
    have hba : b = a := by simpa using congrArg Prod.fst hjb
    omega

theorem selfPairs_mem (k : Nat) (p : Nat × Nat) :
    p ∈ selfPairs k ↔ p.1 ≤ p.2 ∧ p.2 < k := by
  unfold selfPairs
  rw [List.mem_flatMap]
  constructor
  · rintro ⟨i, hi, hmem⟩
    rw [List.mem_map] at hmem
    obtain ⟨j, hj, rfl⟩ := hmem
    rw [List.mem_range] at hi
    obtain ⟨n, hn⟩ := List.mem_iff_getElem?.mp hj
    rw [List.getElem?_drop] at hn
    have hik : i + n < k := by
      by_contra hc
      push_neg at hc
      rw [List.getElem?_eq_none (by simpa using hc)] at hn
      exact Option.noConfusion hn
    rw [List.getElem?_range hik] at hn
    have hjn : i + n = j := by
      injection hn
    exact ⟨by omega, by omega⟩
  · rintro ⟨h1, h2⟩
    refine ⟨p.1, by rw [List.mem_range]; omega, ?_⟩
    rw [List.mem_map]
    have hg : ((List.range k).drop p.1)[p.2 - p.1]? = some p.2 := by
      rw [List.getElem?_drop]
      have hpq : p.1 + (p.2 - p.1) = p.2 := by omega
      rw [hpq, List.getElem?_range h2]
    exact ⟨p.2, List.getElem?_mem hg, by simp⟩

theorem selfPairs_nodup (k : Nat) : (selfPairs k).Nodup := by
  unfold selfPairs
  apply List.nodup_flatMap.mpr
  constructor
  · intro i _
    refine (((List.nodup_range k).sublist (List.drop_sublist i _)).map ?_)
    intro x y hxy
    simpa using congrArg Prod.snd hxy
  · have hp : List.Pairwise (· < ·) (List.range k) :=
      List.pairwise_lt_range k
    apply hp.imp
    intro a b hab x hxa hxb
    rw [List.mem_map] at hxa hxb
    obtain ⟨ja, _, hja⟩ := hxa
    obtain ⟨jb, _, hjb⟩ := hxb
    rw [← hja] at hjb
    have hba : b = a := by simpa using congrArg Prod.fst hjb
    omega

theorem filter_flatMap_length {A B : Type} (l : List A) (f : A → List B)
    (p : B → Bool) :
    ((l.flatMap f).filter p).length
      = (l.map (fun a => ((f a).filter p).length)).sum := by
  induction l with
  | nil => rfl
  | cons a t ih =>
    simp [List.flatMap_cons, List.filter_append, ih]

theorem filter_map_length {A B : Type} (l : List A) (g : A → B)
    (p : B → Bool) :
    ((l.map g).filter p).length = (l.filter (fun a => p (g a))).length := by
  rw [List.filter_map]
  simp [Function.comp_def]

theorem sum_map_ite_one {A : Type} (l : List A) (p : A → Bool) :
    (l.map (fun x => if p x then 1 else 0)).sum = (l.filter p).length := by
  induction l with
  | nil => rfl
  | cons a t ih =>
    by_cases h : p a
    · simp [List.filter_cons, h, ih]
      omega
    · simp [List.filter_cons, h, ih]

theorem filter_eq_target_length_one {A : Type} [DecidableEq A] (l : List A)
    (t : A) (hn : l.Nodup) (hm : t ∈ l) :
    (l.filter (fun x => x = t)).length = 1 := by
  have h1 : l.filter (fun x => decide (x = t)) = l.filter (fun x => x == t) := by
    apply List.filter_congr
    intro x _
    rfl
  rw [h1, ← List.countP_eq_length_filter]
  exact List.count_eq_one_of_mem hn hm

theorem crossPairs_length (ka kb : Nat) :
    (crossPairs ka kb).length = ka * kb := by
  unfold crossPairs
  rw [List.length_flatMap]
  simp only [Function.comp_def]
  have hmap : (List.range ka).map
        (fun i => ((List.range kb).map (fun j => (i, j))).length)
      = (List.range ka).map (fun _ => kb) := by
    apply List.map_congr_left
    intro a _
    simp
  rw [hmap, sum_map_const_nat]
  simp

theorem mkWrite_covers_iff {α : Type} (chunksA chunksB : List (List α))
    (p q u v r c : Nat) (blk : Nat → Nat → ℚ)
    (hp : p < chunksA.length) (hq : q < chunksB.length)
    (hu : u < chunksA.length) (hv : v < chunksB.length)
    (hr1 : chunkOffset chunksA u ≤ r)
    (hr2 : r < chunkOffset chunksA u + chunkLen chunksA u)
    (hc1 : chunkOffset chunksB v ≤ c)
    (hc2 : c < chunkOffset chunksB v + chunkLen chunksB v) :
    (mkWrite chunksA chunksB p q blk).covers r c = true ↔ p = u ∧ q = v := by
  constructor
  · intro h
    simp only [BlockWrite.covers, mkWrite, Bool.and_eq_true,
      decide_eq_true_eq] at h
    obtain ⟨⟨⟨h1, h2⟩, h3⟩, h4⟩ := h
    exact ⟨chunk_index_unique chunksA hp hu h1 h2 hr1 hr2,
      chunk_index_unique chunksB hq hv h3 h4 hc1 hc2⟩
  · rintro ⟨rfl, rfl⟩
    simp only [BlockWrite.covers, mkWrite, Bool.and_eq_true,
      decide_eq_true_eq]
    exact ⟨⟨⟨hr1, hr2⟩, hc1⟩, hc2⟩

theorem crossWrites_getElem? {α : Type} (chunksA chunksB : List (List α))
    (results : List (Nat → Nat → ℚ)) (i j : Nat) (blk : Nat → Nat → ℚ)
    (hi : i < chunksA.length) (hj : j < chunksB.length)
    (hblk : results[i * chunksB.length + j]? = some blk) :
    (crossWrites chunksA chunksB results)[i * chunksB.length + j]?
      = some (mkWrite chunksA chunksB i j blk) := by
  unfold crossWrites
  have hz : ((crossPairs chunksA.length chunksB.length).zip
        results)[i * chunksB.length + j]? = some ((i, j), blk) :=
    List.getElem?_zip_eq_some.mpr
      ⟨crossPairs_getElem? _ _ i j hi hj, hblk⟩
  rw [List.getElem?_map, hz]
  rfl

/-- **C4** (cross-similarity stitching).  For two distinct full lists the
stitcher recomputes the body builder's chunk plan, returns a matrix of
shape `(len A, len B)`, places the block result for cartesian chunk pair
`(i, j)` — the `i·kb + j`-th block, matching enumeration order — directly
at rows-of-chunk-i × cols-of-chunk-j with no mirroring, and each such
cell is written exactly once. -/
theorem claim_C4_cross_stitch {α : Type} [DecidableEq α]
    (maxItems halfChunk : Nat)
    (results : List (Nat → Nat → ℚ)) (fullA fullB : List α)
    (chunksA chunksB : List (List α))
    (hne : fullA ≠ fullB)
    (hA : chunksA = (crossChunksPlan maxItems halfChunk fullA fullB).1)
    (hB : chunksB = (crossChunksPlan maxItems halfChunk fullA fullB).2)
    (hlen : results.length = chunksA.length * chunksB.length)
    (i j r c : Nat) (blk : Nat → Nat → ℚ)
    (hi : i < chunksA.length) (hj : j < chunksB.length)
    (hblk : results[i * chunksB.length + j]? = some blk)
    (hr1 : chunkOffset chunksA i ≤ r)
    (hr2 : r < chunkOffset chunksA i + chunkLen chunksA i)
    (hc1 : chunkOffset chunksB j ≤ c)
    (hc2 : c < chunkOffset chunksB j + chunkLen chunksB j) :
    (stitchResults maxItems halfChunk results fullA fullB).nrows
        = fullA.length ∧
    (stitchResults maxItems halfChunk results fullA fullB).ncols
        = fullB.length ∧
    (stitchResults maxItems halfChunk results fullA fullB).entry r c
        = blk (r - chunkOffset chunksA i) (c - chunkOffset chunksB j) ∧
    writeCount (crossWrites chunksA chunksB results) r c = 1 := by
  have hstitch : stitchResults maxItems halfChunk results fullA fullB
      = ⟨fullA.length, fullB.length,
          applyWrites (fun _ _ => 0)
            (crossWrites chunksA chunksB results)⟩ := by
    simp only [stitchResults]
    rw [if_neg hne, ← hA, ← hB]
  refine ⟨by rw [hstitch], by rw [hstitch], ?_, ?_⟩
  · rw [hstitch]
    apply applyWrites_unique
    · exact ⟨mkWrite chunksA chunksB i j blk,
        List.getElem?_mem
          (crossWrites_getElem? chunksA chunksB results i j blk hi hj hblk),
        (mkWrite_covers_iff chunksA chunksB i j i j r c blk
          hi hj hi hj hr1 hr2 hc1 hc2).mpr ⟨rfl, rfl⟩⟩
    · intro w hw hcov
      unfold crossWrites at hw
      obtain ⟨n, hn⟩ := List.mem_iff_getElem?.mp hw
      rw [List.getElem?_map] at hn
      cases hz : ((crossPairs chunksA.length chunksB.length).zip
          results)[n]? with
      | none =>
        rw [hz] at hn
        exact Option.noConfusion hn
      | some pr =>
        rw [hz] at hn
        simp only [Option.map_some', Option.some.injEq] at hn
        obtain ⟨h1, h2⟩ := List.getElem?_zip_eq_some.mp hz
        have hkb : 0 < chunksB.length := by omega
        obtain ⟨hpform, hdiv, hmod⟩ :=
          crossPairs_getElem?_inv chunksA.length chunksB.length hkb n pr.1 h1
        have hp1 : pr.1.1 < chunksA.length := by rw [hpform]; exact hdiv
        have hp2 : pr.1.2 < chunksB.length := by rw [hpform]; exact hmod
        subst hn
        obtain ⟨hie, hje⟩ :=
          (mkWrite_covers_iff chunksA chunksB pr.1.1 pr.1.2 i j r c pr.2
            hp1 hp2 hi hj hr1 hr2 hc1 hc2).mp hcov
        have e1 : n / chunksB.length = i := by
          rw [hpform] at hie
          exact hie
        have e2 : n % chunksB.length = j := by
          rw [hpform] at hje
          exact hje
        have hn' : n = i * chunksB.length + j := by
          calc n = chunksB.length * (n / chunksB.length)
                + n % chunksB.length := (Nat.div_add_mod n chunksB.length).symm
          _ = i * chunksB.length + j := by rw [e1, e2, Nat.mul_comm]
        rw [hn', hblk] at h2
        injection h2 with h2
        simp only [mkWrite]
        rw [hie, hje, ← h2]
  · unfold writeCount crossWrites
    rw [filter_map_length]
    have hcongr : ((crossPairs chunksA.length chunksB.length).zip
          results).filter
          (fun pr => (mkWrite chunksA chunksB pr.1.1 pr.1.2 pr.2).covers r c)
        = ((crossPairs chunksA.length chunksB.length).zip results).filter
          (fun pr => decide (pr.1 = (i, j))) := by
      apply List.filter_congr
      intro pr hpr
      have hmem := (List.of_mem_zip hpr).1
      obtain ⟨hp1, hp2⟩ := (crossPairs_mem _ _ pr.1).mp hmem
      by_cases hij : pr.1 = (i, j)
      · have hcov : (mkWrite chunksA chunksB pr.1.1 pr.1.2 pr.2).covers r c
            = true :=
          (mkWrite_covers_iff chunksA chunksB pr.1.1 pr.1.2 i j r c pr.2
            hp1 hp2 hi hj hr1 hr2 hc1 hc2).mpr
            ⟨by rw [hij], by rw [hij]⟩
        rw [hcov, hij]
        simp
      · have hcov : ¬ ((mkWrite chunksA chunksB pr.1.1 pr.1.2 pr.2).covers
            r c = true) := by
          intro h
          obtain ⟨h1, h2⟩ :=
            (mkWrite_covers_iff chunksA chunksB pr.1.1 pr.1.2 i j r c pr.2
              hp1 hp2 hi hj hr1 hr2 hc1 hc2).mp h
          exact hij (Prod.ext_iff.mpr ⟨h1, h2⟩)
        rw [Bool.not_eq_true] at hcov
        rw [hcov]
        simp [hij]
    rw [hcongr]
    have hfm := filter_map_length
      ((crossPairs chunksA.length chunksB.length).zip results) Prod.fst
      (fun q => decide (q = (i, j)))
    rw [← hfm,
      List.map_fst_zip _ _ (le_of_eq (by rw [crossPairs_length, hlen]))]
    exact filter_eq_target_length_one _ _ (crossPairs_nodup _ _)
      ((crossPairs_mem _ _ (i, j)).mpr ⟨hi, hj⟩)

/-- Witness for C4 at the tests' configuration (`MAX = 5`, `HALF = 2`,
`A = [0..5]`, `B = [6..11]`, nine synthetic blocks): cell `(3, 5)` sits in
chunk pair `(1, 2)` and receives block value `23`, written once. -/
theorem claim_C4_cross_stitch_witness :
    (stitchResults 5 2 crossDemoBlocks (List.range 6)
        ((List.range 6).map (fun x => x + 6))).nrows = 6 ∧
    (stitchResults 5 2 crossDemoBlocks (List.range 6)
        ((List.range 6).map (fun x => x + 6))).ncols = 6 ∧
    (stitchResults 5 2 crossDemoBlocks (List.range 6)
        ((List.range 6).map (fun x => x + 6))).entry 3 5 = 23 ∧
    writeCount (crossWrites [[0, 1], [2, 3], [4, 5]]
        [[6, 7], [8, 9], [10, 11]] crossDemoBlocks) 3 5 = 1 := by
  have h := claim_C4_cross_stitch 5 2 crossDemoBlocks (List.range 6)
      ((List.range 6).map (fun x => x + 6))
      [[0, 1], [2, 3], [4, 5]] [[6, 7], [8, 9], [10, 11]]
      (by decide) (by decide) (by decide) (by decide)
      1 2 3 5 (fun _ _ => 23)
      (by decide) (by decide) rfl
      (by decide) (by decide) (by decide) (by decide)
  exact h

theorem getElem?_some_lt {A : Type} {l : List A} {n : Nat} {x : A}
    (h : l[n]? = some x) : n < l.length := by
  by_contra hn
  push_neg at hn
  rw [List.getElem?_eq_none hn] at h
  exact Option.noConfusion h

theorem selfWrites_mem_direct {α : Type} (chunks : List (List α))
    (results : List (Nat → Nat → ℚ)) (idx i j : Nat) (blk : Nat → Nat → ℚ)
    (hidx : (selfPairs chunks.length)[idx]? = some (i, j))
    (hblk : results[idx]? = some blk) :
    mkWrite chunks chunks i j blk ∈ selfWrites chunks results := by
  unfold selfWrites
  rw [List.mem_flatMap]
  refine ⟨((i, j), blk),
    List.getElem?_mem (List.getElem?_zip_eq_some.mpr ⟨hidx, hblk⟩), ?_⟩
  by_cases hd : i = j
  · simp [hd]
  · simp [hd]

theorem selfWrites_mem_mirror {α : Type} (chunks : List (List α))
    (results : List (Nat → Nat → ℚ)) (idx i j : Nat) (blk : Nat → Nat → ℚ)
    (hidx : (selfPairs chunks.length)[idx]? = some (i, j))
    (hblk : results[idx]? = some blk) (hne : i ≠ j) :
    mkWrite chunks chunks j i (fun a b => blk b a)
      ∈ selfWrites chunks results := by
  unfold selfWrites
  rw [List.mem_flatMap]
  refine ⟨((i, j), blk),
    List.getElem?_mem (List.getElem?_zip_eq_some.mpr ⟨hidx, hblk⟩), ?_⟩
  simp [hne]

theorem selfWrites_cover_char {α : Type} (chunks : List (List α))
    (results : List (Nat → Nat → ℚ)) (r c u v : Nat)
    (hu : u < chunks.length) (hv : v < chunks.length)
    (hr1 : chunkOffset chunks u ≤ r)
    (hr2 : r < chunkOffset chunks u + chunkLen chunks u)
    (hc1 : chunkOffset chunks v ≤ c)
    (hc2 : c < chunkOffset chunks v + chunkLen chunks v)
    (w : BlockWrite) (hw : w ∈ selfWrites chunks results)
    (hcov : w.covers r c = true) :
    ∃ (n p q : Nat) (rblk : Nat → Nat → ℚ),
      (selfPairs chunks.length)[n]? = some (p, q) ∧
      results[n]? = some rblk ∧ p ≤ q ∧ q < chunks.length ∧
      ((w = mkWrite chunks chunks p q rblk ∧ p = u ∧ q = v) ∨
       (p ≠ q ∧ w = mkWrite chunks chunks q p (fun a b => rblk b a) ∧
         q = u ∧ p = v)) := by
  unfold selfWrites at hw
  rw [List.mem_flatMap] at hw
  obtain ⟨pr, hpr, hwin⟩ := hw
  obtain ⟨n, hn⟩ := List.mem_iff_getElem?.mp hpr
  obtain ⟨h1, h2⟩ := List.getElem?_zip_eq_some.mp hn
  obtain ⟨hpq, hqk⟩ :=
    (selfPairs_mem chunks.length pr.1).mp (List.getElem?_mem h1)
  have hpk : pr.1.1 < chunks.length := by omega
  have h1' : (selfPairs chunks.length)[n]? = some (pr.1.1, pr.1.2) := by
    simpa using h1
  by_cases hd : pr.1.1 = pr.1.2
  · rw [if_pos hd] at hwin
    simp only [List.mem_singleton] at hwin
    subst hwin
    obtain ⟨he1, he2⟩ :=
      (mkWrite_covers_iff chunks chunks pr.1.1 pr.1.2 u v r c pr.2
        hpk hqk hu hv hr1 hr2 hc1 hc2).mp hcov
    exact ⟨n, pr.1.1, pr.1.2, pr.2, h1', h2, hpq, hqk,
      Or.inl ⟨rfl, he1, he2⟩⟩
  · rw [if_neg hd] at hwin
    rcases List.mem_cons.mp hwin with hwd | hwm
    · subst hwd
      obtain ⟨he1, he2⟩ :=
        (mkWrite_covers_iff chunks chunks pr.1.1 pr.1.2 u v r c pr.2
          hpk hqk hu hv hr1 hr2 hc1 hc2).mp hcov
      exact ⟨n, pr.1.1, pr.1.2, pr.2, h1', h2, hpq, hqk,
        Or.inl ⟨rfl, he1, he2⟩⟩
    · simp only [List.mem_singleton] at hwm
      subst hwm
      obtain ⟨he1, he2⟩ :=
        (mkWrite_covers_iff chunks chunks pr.1.2 pr.1.1 u v r c
          (fun a b => pr.2 b a) hqk hpk hu hv hr1 hr2 hc1 hc2).mp hcov
      exact ⟨n, pr.1.1, pr.1.2, pr.2, h1', h2, hpq, hqk,
        Or.inr ⟨hd, rfl, he1, he2⟩⟩

theorem sum_map_ite_count {A : Type} [DecidableEq A] (l : List A) (t : A) :
    (l.map (fun x => if x = t then 1 else 0)).sum
      = (l.filter (fun x => x = t)).length := by
  induction l with
  | nil => rfl
  | cons a rest ih =>
    by_cases h : a = t
    · simp [List.filter_cons, h, ih]
      omega
    · simp [List.filter_cons, h, ih]

theorem selfWrites_count_one {α : Type} (chunks : List (List α))
    (results : List (Nat → Nat → ℚ)) (r c u v : Nat)
    (hu : u < chunks.length) (hv : v < chunks.length)
    (hr1 : chunkOffset chunks u ≤ r)
    (hr2 : r < chunkOffset chunks u + chunkLen chunks u)
    (hc1 : chunkOffset chunks v ≤ c)
    (hc2 : c < chunkOffset chunks v + chunkLen chunks v)
    (hlen : results.length = (selfPairs chunks.length).length) :
    writeCount (selfWrites chunks results) r c = 1 := by
  unfold writeCount selfWrites
  rw [filter_flatMap_length]
  have hmap : ((selfPairs chunks.length).zip results).map
        (fun pr =>
          (((if pr.1.1 = pr.1.2 then
              [mkWrite chunks chunks pr.1.1 pr.1.2 pr.2]
            else
              [mkWrite chunks chunks pr.1.1 pr.1.2 pr.2,
               mkWrite chunks chunks pr.1.2 pr.1.1
                 (fun a b => pr.2 b a)]).filter
            (fun w => w.covers r c)).length))
      = ((selfPairs chunks.length).zip results).map
          (fun pr => if pr.1 = (min u v, max u v) then 1 else 0) := by
    apply List.map_congr_left
    intro pr hpr
    obtain ⟨hpq, hqk⟩ :=
      (selfPairs_mem chunks.length pr.1).mp (List.of_mem_zip hpr).1
    have hpk : pr.1.1 < chunks.length := by omega
    have hdir := mkWrite_covers_iff chunks chunks pr.1.1 pr.1.2 u v r c
      pr.2 hpk hqk hu hv hr1 hr2 hc1 hc2
    have hmir := mkWrite_covers_iff chunks chunks pr.1.2 pr.1.1 u v r c
      (fun a b => pr.2 b a) hqk hpk hu hv hr1 hr2 hc1 hc2
    by_cases hd : pr.1.1 = pr.1.2
    · rw [if_pos hd]
      by_cases hcov : (mkWrite chunks chunks pr.1.1 pr.1.2 pr.2).covers r c
          = true
      · obtain ⟨he1, he2⟩ := hdir.mp hcov
        have htgt : pr.1 = (min u v, max u v) := by
          have huv : u = v := by omega
          have : pr.1 = (pr.1.1, pr.1.2) := rfl
          rw [this, he1, he2]
          have h1 : min u v = u := by omega
          have h2 : max u v = v := by omega
          rw [h1, h2]
        rw [if_pos htgt]
        simp [List.filter_cons, hcov]
      · have htgt : ¬ (pr.1 = (min u v, max u v)) := by
          intro habs
          have he1 : pr.1.1 = min u v := by rw [habs]
          have he2 : pr.1.2 = max u v := by rw [habs]
          have huv : u = v := by omega
          exact hcov (hdir.mpr ⟨by omega, by omega⟩)
        rw [if_neg htgt]
        rw [Bool.not_eq_true] at hcov
        simp [List.filter_cons, hcov]
    · rw [if_neg hd]
      by_cases hcov1 : (mkWrite chunks chunks pr.1.1 pr.1.2 pr.2).covers r c
          = true
      · obtain ⟨he1, he2⟩ := hdir.mp hcov1
        have hcov2 : ¬ ((mkWrite chunks chunks pr.1.2 pr.1.1
            (fun a b => pr.2 b a)).covers r c = true) := by
          intro habs
          obtain ⟨hm1, hm2⟩ := hmir.mp habs
          exact hd (by omega)
        have htgt : pr.1 = (min u v, max u v) := by
          have : pr.1 = (pr.1.1, pr.1.2) := rfl
          rw [this, he1, he2]
          have h1 : min u v = u := by omega
          have h2 : max u v = v := by omega
          rw [h1, h2]
        rw [if_pos htgt, Bool.not_eq_true] at *
        simp [List.filter_cons, hcov1, hcov2]
      · by_cases hcov2 : (mkWrite chunks chunks pr.1.2 pr.1.1
            (fun a b => pr.2 b a)).covers r c = true
        · obtain ⟨hm1, hm2⟩ := hmir.mp hcov2
          have htgt : pr.1 = (min u v, max u v) := by
            have hfst : pr.1 = (pr.1.1, pr.1.2) := rfl
            have h1 : min u v = v := by omega
            have h2 : max u v = u := by omega
            rw [hfst, hm1, hm2, h1, h2]
          rw [if_pos htgt]
          rw [Bool.not_eq_true] at hcov1
          simp [List.filter_cons, hcov1, hcov2]
        · have htgt : ¬ (pr.1 = (min u v, max u v)) := by
            intro habs
            have he1 : pr.1.1 = min u v := by rw [habs]
            have he2 : pr.1.2 = max u v := by rw [habs]
            by_cases huv : u ≤ v
            · exact hcov1 (hdir.mpr ⟨by omega, by omega⟩)
            · exact hcov2 (hmir.mpr ⟨by omega, by omega⟩)
          rw [if_neg htgt]
          rw [Bool.not_eq_true] at hcov1 hcov2
          simp [List.filter_cons, hcov1, hcov2]
  rw [hmap]
  have hsplit : ((selfPairs chunks.length).zip results).map
        (fun pr => if pr.1 = (min u v, max u v) then 1 else 0)
      = (((selfPairs chunks.length).zip results).map Prod.fst).map
          (fun q => if q = (min u v, max u v) then 1 else 0) := by
    rw [List.map_map]
    rfl
  rw [hsplit, List.map_fst_zip _ _ (le_of_eq hlen.symm),
    sum_map_ite_count]
  exact filter_eq_target_length_one _ _ (selfPairs_nodup _)
    ((selfPairs_mem _ (min u v, max u v)).mpr ⟨by omega, by omega⟩)

/-- **C3** (self-similarity stitching round-trip).  In self mode the
stitcher recomputes the self chunking, returns a `len(L) × len(L)`
matrix, places the block result paired with upper-triangle chunk pair
`(i, j)` (enumeration order) at rows-of-chunk-i × cols-of-chunk-j, and
for `i ≠ j` mirrors its transpose at rows-of-chunk-j × cols-of-chunk-i;
every covered cell — diagonal blocks included — is written exactly
once. -/
theorem claim_C3_self_stitch {α : Type} [DecidableEq α]
    (maxItems halfChunk : Nat)
    (results : List (Nat → Nat → ℚ)) (L : List α)
    (chunks : List (List α))
    (hch : chunks = makeSelfChunks maxItems halfChunk L)
    (hlen : results.length = (selfPairs chunks.length).length)
    (idx i j : Nat) (blk : Nat → Nat → ℚ)
    (hidx : (selfPairs chunks.length)[idx]? = some (i, j))
    (hblk : results[idx]? = some blk) :
    (stitchResults maxItems halfChunk results L L).nrows = L.length ∧
    (stitchResults maxItems halfChunk results L L).ncols = L.length ∧
    (∀ r c, chunkOffset chunks i ≤ r →
        r < chunkOffset chunks i + chunkLen chunks i →
        chunkOffset chunks j ≤ c →
        c < chunkOffset chunks j + chunkLen chunks j →
        (stitchResults maxItems halfChunk results L L).entry r c
            = blk (r - chunkOffset chunks i) (c - chunkOffset chunks j) ∧
        writeCount (selfWrites chunks results) r c = 1) ∧
    (i ≠ j → ∀ r c, chunkOffset chunks j ≤ r →
        r < chunkOffset chunks j + chunkLen chunks j →
        chunkOffset chunks i ≤ c →
        c < chunkOffset chunks i + chunkLen chunks i →
        (stitchResults maxItems halfChunk results L L).entry r c
            = blk (c - chunkOffset chunks i) (r - chunkOffset chunks j) ∧
        writeCount (selfWrites chunks results) r c = 1) := by
  obtain ⟨hij0, hjk0⟩ :=
    (selfPairs_mem chunks.length (i, j)).mp (List.getElem?_mem hidx)
  have hij : i ≤ j := hij0
  have hjk : j < chunks.length := hjk0
  have hik : i < chunks.length := by omega
  have hstitch : stitchResults maxItems halfChunk results L L
      = ⟨L.length, L.length,
          applyWrites (fun _ _ => 0) (selfWrites chunks results)⟩ := by
    simp only [stitchResults]
    rw [if_pos trivial, ← hch]
  refine ⟨by rw [hstitch], by rw [hstitch], ?_, ?_⟩
  · intro r c hr1 hr2 hc1 hc2
    refine ⟨?_, selfWrites_count_one chunks results r c i j hik hjk
      hr1 hr2 hc1 hc2 hlen⟩
    rw [hstitch]
    apply applyWrites_unique
    · exact ⟨mkWrite chunks chunks i j blk,
        selfWrites_mem_direct chunks results idx i j blk hidx hblk,
        (mkWrite_covers_iff chunks chunks i j i j r c blk
          hik hjk hik hjk hr1 hr2 hc1 hc2).mpr ⟨rfl, rfl⟩⟩
    · intro w hw hcov
      obtain ⟨n, p, q, rblk, hn1, hn2, hpq, hqk, hcase⟩ :=
        selfWrites_cover_char chunks results r c i j hik hjk
          hr1 hr2 hc1 hc2 w hw hcov
      rcases hcase with ⟨hweq, he1, he2⟩ | ⟨hne', hweq, he1, he2⟩
      · subst he1
        subst he2
        have hn' : n = idx :=
          List.getElem?_inj (getElem?_some_lt hn1) (selfPairs_nodup _)
            (by rw [hn1, hidx])
        rw [hn', hblk] at hn2
        injection hn2 with hn2
        subst hweq
        simp only [mkWrite]
        rw [hn2]
      · exfalso
        omega
  · intro hne r c hr1 hr2 hc1 hc2
    refine ⟨?_, selfWrites_count_one chunks results r c j i hjk hik
      hr1 hr2 hc1 hc2 hlen⟩
    rw [hstitch]
    apply applyWrites_unique
    · exact ⟨mkWrite chunks chunks j i (fun a b => blk b a),
        selfWrites_mem_mirror chunks results idx i j blk hidx hblk hne,
        (mkWrite_covers_iff chunks chunks j i j i r c
          (fun a b => blk b a) hjk hik hjk hik hr1 hr2 hc1 hc2).mpr
          ⟨rfl, rfl⟩⟩
    · intro w hw hcov
      obtain ⟨n, p, q, rblk, hn1, hn2, hpq, hqk, hcase⟩ :=
        selfWrites_cover_char chunks results r c j i hjk hik
          hr1 hr2 hc1 hc2 w hw hcov
      rcases hcase with ⟨hweq, he1, he2⟩ | ⟨hne', hweq, he1, he2⟩
      · exfalso
        omega
      · subst he1
        subst he2
        have hn' : n = idx :=
          List.getElem?_inj (getElem?_some_lt hn1) (selfPairs_nodup _)
            (by rw [hn1, hidx])
        rw [hn', hblk] at hn2
        injection hn2 with hn2
        subst hweq
        simp only [mkWrite]
        rw [hn2]

/-- Witness for C3 at the tests' configuration (`MAX = 5`, `HALF = 2`,
`L = [0..5]`, six upper-triangle blocks): pair `(1, 2)` is the fifth
block; cell `(3, 5)` receives it directly and cell `(4, 2)` receives its
mirror, each written once. -/
theorem claim_C3_self_stitch_witness :
    (stitchResults 5 2 selfDemoBlocks (List.range 6)
        (List.range 6)).nrows = 6 ∧
    (stitchResults 5 2 selfDemoBlocks (List.range 6)
        (List.range 6)).entry 3 5 = 23 ∧
    (stitchResults 5 2 selfDemoBlocks (List.range 6)
        (List.range 6)).entry 4 2 = 23 ∧
    writeCount (selfWrites [[0, 1], [2, 3], [4, 5]] selfDemoBlocks) 4 2
      = 1 := by
  have h := claim_C3_self_stitch 5 2 selfDemoBlocks (List.range 6)
      [[0, 1], [2, 3], [4, 5]] (by decide) (by decide)
      4 1 2 (fun _ _ => 23) (by decide) rfl
  have hdirect := h.2.2.1 3 5 (by decide) (by decide) (by decide) (by decide)
  have hmirror := h.2.2.2 (by decide) 4 2 (by decide) (by decide)
    (by decide) (by decide)
  exact ⟨h.1, hdirect.1, hmirror.1, hmirror.2⟩

theorem foldl_addWithDeps_no_deps {ρ : Type}
    (registry : String → Option (Proc ρ)) :
    ∀ (ps : List (Proc ρ)) (acc : List (Proc ρ)),
      (∀ p ∈ ps, p.deps = []) →
      ps.foldl (addWithDeps registry) acc = acc ++ ps := by
  intro ps
  induction ps with
  | nil =>
    intro acc _
    simp
  | cons p t ih =>
    intro acc h
    simp only [List.foldl_cons]
    have hd : p.deps = [] := h p (List.mem_cons_self _ _)
    have hstep : addWithDeps registry acc p = acc ++ [p] := by
      unfold addWithDeps
      rw [hd]
      rfl
    rw [hstep, ih (acc ++ [p])
      (fun q hq => h q (List.mem_cons_of_mem _ hq))]
    simp

theorem resolveProcs_no_deps {ρ : Type}
    (registry : String → Option (Proc ρ)) (ps : List (Proc ρ))
    (h : ∀ p ∈ ps, p.deps = []) :
    resolveProcs registry ps = ps := by
  unfold resolveProcs
  rw [foldl_addWithDeps_no_deps registry ps [] h]
  simp

theorem runFold_all_cached {ρ : Type} (dataset : List String)
    (v : Proc ρ → ρ) :
    ∀ (ps : List (Proc ρ)) (st : EngineState ρ)
      (results : List (String × ρ)),
      (∀ p ∈ ps, cacheLookup (fingerprint dataset p) st.cache = some (v p)) →
      ps.foldl (stepProc dataset true) (st, results)
        = (st, results ++ ps.map (fun q => (q.id, v q))) := by
  intro ps
  induction ps with
  | nil =>
    intro st results _
    simp
  | cons p t ih =>
    intro st results h
    have hstep : stepProc dataset true (st, results) p
        = (st, results ++ [(p.id, v p)]) := by
      unfold stepProc
      rw [if_pos rfl, h p (List.mem_cons_self _ _)]
    simp only [List.foldl_cons, hstep]
    rw [ih st (results ++ [(p.id, v p)])
      (fun q hq => h q (List.mem_cons_of_mem _ hq))]
    simp

theorem cacheLookup_cons_ne {ρ : Type} (k k' : String) (v : ρ)
    (cache : List (String × ρ)) (h : ¬ k = k') :
    cacheLookup k' ((k, v) :: cache) = cacheLookup k' cache := by
  unfold cacheLookup
  rw [List.find?_cons_of_neg]
  simp [h]

theorem cacheLookup_cons_self {ρ : Type} (k : String) (v : ρ)
    (cache : List (String × ρ)) :
    cacheLookup k ((k, v) :: cache) = some v := by
  unfold cacheLookup
  rw [List.find?_cons_of_pos]
  · rfl
  · simp

theorem runFold_all_miss {ρ : Type} (dataset : List String)
    (useCache : Bool) :
    ∀ (ps : List (Proc ρ)) (st : EngineState ρ)
      (results : List (String × ρ)),
      (ps.map Proc.id).Nodup →
      (useCache = true → (ps.map (fingerprint dataset)).Nodup ∧
        ∀ p ∈ ps, cacheLookup (fingerprint dataset p) st.cache = none) →
      ∃ f : Proc ρ → ρ,
        (ps.foldl (stepProc dataset useCache) (st, results)).2
            = results ++ ps.map (fun q => (q.id, f q)) ∧
        (∀ name,
          (ps.foldl (stepProc dataset useCache) (st, results)).1.counts name
            = if name ∈ ps.map Proc.id then st.counts name + 1
              else st.counts name) ∧
        (∀ p ∈ ps, ∃ ctx, f p = p.run (st.counts p.id) ctx) ∧
        (useCache = true → ∀ p ∈ ps,
          cacheLookup (fingerprint dataset p)
              (ps.foldl (stepProc dataset useCache) (st, results)).1.cache
            = some (f p)) ∧
        (∀ key, key ∉ ps.map (fingerprint dataset) →
          cacheLookup key
              (ps.foldl (stepProc dataset useCache) (st, results)).1.cache
            = cacheLookup key st.cache) := by
  intro ps
  induction ps with
  | nil =>
    intro st results _ _
    refine ⟨fun q => q.run 0 (fun _ => none), by simp, ?_, by simp, ?_, ?_⟩
    · intro name
      simp
    · intro _ p hp
      simp at hp
    · intro key _
      simp
  | cons p t ih =>
    intro st results hids hmiss
    have hids' : (p.id :: t.map Proc.id).Nodup := by
      simpa only [List.map_cons] using hids
    obtain ⟨hpid_not, htids⟩ := List.nodup_cons.mp hids'
    have hprobe : (if useCache then
        cacheLookup (fingerprint dataset p) st.cache else none) = none := by
      cases useCache with
      | false => rfl
      | true => simpa using (hmiss rfl).2 p (List.mem_cons_self _ _)
    have hstep : stepProc dataset useCache (st, results) p
        = (⟨if useCache then
              (fingerprint dataset p,
                p.run (st.counts p.id) (ctxOf results)) :: st.cache
            else st.cache,
            fun s => if s = p.id then st.counts p.id + 1
              else st.counts s⟩,
          results ++ [(p.id, p.run (st.counts p.id) (ctxOf results))]) := by
      unfold stepProc
      rw [hprobe]
    have hmiss1 : useCache = true →
        (t.map (fingerprint dataset)).Nodup ∧
        ∀ q ∈ t, cacheLookup (fingerprint dataset q)
          (if useCache then
              (fingerprint dataset p,
                p.run (st.counts p.id) (ctxOf results)) :: st.cache
            else st.cache) = none := by
      intro hu
      obtain ⟨hfpsN, hnone⟩ := hmiss hu
      have hfpsN' : (fingerprint dataset p
          :: t.map (fingerprint dataset)).Nodup := by
        simpa only [List.map_cons] using hfpsN
      obtain ⟨hfp_not, hfpsT⟩ := List.nodup_cons.mp hfpsN'
      refine ⟨hfpsT, ?_⟩
      intro q hq
      rw [if_pos hu]
      have hne : ¬ (fingerprint dataset p = fingerprint dataset q) := by
        intro habs
        exact hfp_not (habs ▸ List.mem_map_of_mem (fingerprint dataset) hq)
      rw [cacheLookup_cons_ne _ _ _ _ hne]
      exact hnone q (List.mem_cons_of_mem _ hq)
    obtain ⟨f, hres, hcounts, hruns, hcache, hpres⟩ :=
      ih ⟨if useCache then
            (fingerprint dataset p,
              p.run (st.counts p.id) (ctxOf results)) :: st.cache
          else st.cache,
          fun s => if s = p.id then st.counts p.id + 1 else st.counts s⟩
        (results ++ [(p.id, p.run (st.counts p.id) (ctxOf results))])
        htids hmiss1
    refine ⟨fun q => if q.id = p.id
        then p.run (st.counts p.id) (ctxOf results) else f q,
      ?_, ?_, ?_, ?_, ?_⟩
    · simp only [List.foldl_cons, hstep]
      rw [hres]
      have hmapt : t.map (fun q => (q.id, if q.id = p.id
            then p.run (st.counts p.id) (ctxOf results) else f q))
          = t.map (fun q => (q.id, f q)) := by
        apply List.map_congr_left
        intro q hq
        have hqid : ¬ (q.id = p.id) := by
          intro habs
          exact hpid_not (habs ▸ List.mem_map_of_mem Proc.id hq)
        simp [hqid]
      simp [hmapt]
    · intro name
      simp only [List.foldl_cons, hstep]
      rw [hcounts name]
      simp only [List.map_cons, List.mem_cons]
      by_cases hn2 : name = p.id
      · have hn1 : ¬ (name ∈ t.map Proc.id) := by
          intro habs
          exact hpid_not (hn2 ▸ habs)
        simp [hn1, hn2]
        intro x hx habs
        exact hpid_not (habs ▸ List.mem_map_of_mem Proc.id hx)
      · by_cases hn1 : name ∈ t.map Proc.id
        · simp [hn1, hn2]
        · simp [hn1, hn2]
    · intro q hq
      rcases List.mem_cons.mp hq with hq1 | hq2
      · subst hq1
        exact ⟨ctxOf results, by simp⟩
      · have hqid : ¬ (q.id = p.id) := by
          intro habs
          exact hpid_not (habs ▸ List.mem_map_of_mem Proc.id hq2)
        obtain ⟨ctx, hctx⟩ := hruns q hq2
        refine ⟨ctx, ?_⟩
        have hbeta : (fun q => if q.id = p.id
            then p.run (st.counts p.id) (ctxOf results) else f q) q = f q := by
          simp [hqid]
        rw [hbeta, hctx]
        simp [hqid]
    · intro hu q hq
      rcases List.mem_cons.mp hq with hq1 | hq2
      · subst hq1
        have hfp_not_t : fingerprint dataset q
            ∉ t.map (fingerprint dataset) := by
          obtain ⟨hfpsN, _⟩ := hmiss hu
          have hfpsN' : (fingerprint dataset q
              :: t.map (fingerprint dataset)).Nodup := by
            simpa only [List.map_cons] using hfpsN
          exact (List.nodup_cons.mp hfpsN').1
        rw [List.foldl_cons, hstep, hpres _ hfp_not_t, if_pos hu,
          cacheLookup_cons_self]
        simp
      · have hqid : ¬ (q.id = p.id) := by
          intro habs
          exact hpid_not (habs ▸ List.mem_map_of_mem Proc.id hq2)
        rw [List.foldl_cons, hstep, hcache hu q hq2]
        simp [hqid]
    · intro key hkey
      simp only [List.map_cons, List.mem_cons] at hkey
      push_neg at hkey
      rw [List.foldl_cons, hstep, hpres key hkey.2]
      cases useCache with
      | false => rfl
      | true =>
        rw [if_pos rfl,
          cacheLookup_cons_ne _ _ _ _ (fun h => hkey.1 h.symm)]

theorem getAttr_cons_self {ρ : Type} (name : String) (v : ρ)
    (rest : List (String × ρ)) :
    getAttr ((name, v) :: rest) name = some v := by
  unfold getAttr
  rw [List.find?_cons_of_pos _ (by simp)]
  rfl

theorem getAttr_cons_ne {ρ : Type} (k : String) (v : ρ)
    (rest : List (String × ρ)) (name : String) (h : ¬ k = name) :
    getAttr ((k, v) :: rest) name = getAttr rest name := by
  unfold getAttr
  rw [List.find?_cons_of_neg _ (by simp [h])]

theorem getAttr_map_of_nodup {ρ : Type} :
    ∀ (ps : List (Proc ρ)) (f : Proc ρ → ρ) (p : Proc ρ),
      p ∈ ps → (ps.map Proc.id).Nodup →
      getAttr (ps.map (fun q => (q.id, f q))) p.id = some (f p) := by
  intro ps
  induction ps with
  | nil =>
    intro f p hmem _
    simp at hmem
  | cons q t ih =>
    intro f p hmem hids
    have hids' : (q.id :: t.map Proc.id).Nodup := by
      simpa only [List.map_cons] using hids
    obtain ⟨hqid_not, htids⟩ := List.nodup_cons.mp hids'
    simp only [List.map_cons]
    rcases List.mem_cons.mp hmem with h1 | h2
    · subst h1
      exact getAttr_cons_self p.id (f p) _
    · have hne : ¬ (q.id = p.id) := by
        intro habs
        exact hqid_not (habs ▸ List.mem_map_of_mem Proc.id h2)
      rw [getAttr_cons_ne q.id (f q) _ p.id hne]
      exact ih f p h2 htids

theorem getAttr_eq_none {ρ : Type} :
    ∀ (results : List (String × ρ)) (name : String),
      (∀ pr ∈ results, ¬ pr.1 = name) → getAttr results name = none := by
  intro results
  induction results with
  | nil =>
    intro name _
    rfl
  | cons kv rest ih =>
    intro name h
    obtain ⟨k, v⟩ := kv
    rw [getAttr_cons_ne k v rest name (h (k, v) (List.mem_cons_self _ _))]
    exact ih name (fun pr hpr => h pr (List.mem_cons_of_mem _ hpr))

theorem runFold_result_ids {ρ : Type} (dataset : List String)
    (useCache : Bool) :
    ∀ (ps : List (Proc ρ)) (st : EngineState ρ)
      (results : List (String × ρ)),
      ∀ pr ∈ (ps.foldl (stepProc dataset useCache) (st, results)).2,
        pr ∈ results ∨ pr.1 ∈ ps.map Proc.id := by
  intro ps
  induction ps with
  | nil =>
    intro st results pr hpr
    simp only [List.foldl_nil] at hpr
    exact Or.inl hpr
  | cons p t ih =>
    intro st results pr hpr
    rw [List.foldl_cons] at hpr
    cases hprobe : (if useCache then
        cacheLookup (fingerprint dataset p) st.cache else none) with
    | some rv =>
      have hstep : stepProc dataset useCache (st, results) p
          = (st, results ++ [(p.id, rv)]) := by
        unfold stepProc
        rw [hprobe]
      rw [hstep] at hpr
      rcases ih _ _ pr hpr with h1 | h2
      · rcases List.mem_append.mp h1 with ha | hb
        · exact Or.inl ha
        · simp only [List.mem_singleton] at hb
          right
          rw [hb]
          simp
      · right
        simp [h2]
    | none =>
      have hstep : stepProc dataset useCache (st, results) p
          = (⟨if useCache then
                (fingerprint dataset p,
                  p.run (st.counts p.id) (ctxOf results)) :: st.cache
              else st.cache,
              fun s => if s = p.id then st.counts p.id + 1
                else st.counts s⟩,
            results ++ [(p.id, p.run (st.counts p.id) (ctxOf results))]) := by
        unfold stepProc
        rw [hprobe]
      rw [hstep] at hpr
      rcases ih _ _ pr hpr with h1 | h2
      · rcases List.mem_append.mp h1 with ha | hb
        · exact Or.inl ha
        · simp only [List.mem_singleton] at hb
          right
          rw [hb]
          simp
      · right
        simp [h2]

/-- **C5** (pipeline caching enabled).  Over an unchanged dataset and
configuration, the first `run()` invokes each process exactly once
(counter 1) and the second `run()` reuses the cached results — counters
stay at 1 and the result bundle is identical.  After `clear_cache()` the
next `run()` invokes each computation again (counter 2) and returns the
fresh, second-invocation result. -/
theorem claim_C5_caching_enabled {ρ : Type} (dataset : List String)
    (ps : List (Proc ρ)) (registry : String → Option (Proc ρ))
    (hdeps : ∀ p ∈ ps, p.deps = [])
    (hids : (ps.map Proc.id).Nodup)
    (hfps : (ps.map (fingerprint dataset)).Nodup) :
    let a : Analyzer ρ := ⟨dataset, ps, registry, true⟩
    let r1 := a.run (emptyEngineState ρ)
    let r2 := a.run r1.1
    let r3 := a.run (clearCache r2.1)
    (∀ p ∈ ps, r1.1.counts p.id = 1) ∧
    (∀ p ∈ ps, ∃ ctx, getAttr r1.2 p.id = some (p.run 0 ctx)) ∧
    r2.2 = r1.2 ∧
    (∀ p ∈ ps, r2.1.counts p.id = 1) ∧
    (∀ p ∈ ps, r3.1.counts p.id = 2) ∧
    (∀ p ∈ ps, ∃ ctx, getAttr r3.2 p.id = some (p.run 1 ctx)) := by
  intro a r1 r2 r3
  have hresolve : resolveProcs registry ps = ps :=
    resolveProcs_no_deps registry ps hdeps
  obtain ⟨f1, hres1, hcounts1, hruns1, hcache1, hpres1⟩ :=
    runFold_all_miss dataset true ps (emptyEngineState ρ) [] hids
      (fun _ => ⟨hfps, fun p _ => rfl⟩)
  have hr1 : r1 = ps.foldl (stepProc dataset true) (emptyEngineState ρ, []) := by
    show runProcs dataset true (resolveProcs registry ps)
        (emptyEngineState ρ) = _
    rw [hresolve]
    rfl
  have hc1 : ∀ p ∈ ps, r1.1.counts p.id = 1 := by
    intro p hp
    rw [hr1, hcounts1 p.id,
      if_pos (List.mem_map_of_mem Proc.id hp)]
    rfl
  have hres1' : r1.2 = ps.map (fun q => (q.id, f1 q)) := by
    rw [hr1, hres1]
    simp
  have hcached : ∀ p ∈ ps,
      cacheLookup (fingerprint dataset p) r1.1.cache = some (f1 p) := by
    intro p hp
    rw [hr1]
    exact hcache1 rfl p hp
  have hr2 : r2 = (r1.1, ps.map (fun q => (q.id, f1 q))) := by
    show runProcs dataset true (resolveProcs registry ps) r1.1 = _
    rw [hresolve]
    unfold runProcs
    rw [runFold_all_cached dataset f1 ps r1.1 [] hcached]
    simp
  obtain ⟨f3, hres3, hcounts3, hruns3, hcache3, hpres3⟩ :=
    runFold_all_miss dataset true ps (clearCache r2.1) [] hids
      (fun _ => ⟨hfps, fun p _ => rfl⟩)
  have hr3 : r3 = ps.foldl (stepProc dataset true) (clearCache r2.1, []) := by
    show runProcs dataset true (resolveProcs registry ps)
        (clearCache r2.1) = _
    rw [hresolve]
    rfl
  have hc2 : ∀ p ∈ ps, r2.1.counts p.id = 1 := by
    intro p hp
    rw [hr2]
    exact hc1 p hp
  refine ⟨hc1, ?_, ?_, hc2, ?_, ?_⟩
  · intro p hp
    obtain ⟨ctx, hctx⟩ := hruns1 p hp
    refine ⟨ctx, ?_⟩
    rw [hres1', getAttr_map_of_nodup ps f1 p hp hids, hctx]
    rfl
  · rw [hr2, hres1']
  · intro p hp
    rw [hr3, hcounts3 p.id, if_pos (List.mem_map_of_mem Proc.id hp)]
    show r2.1.counts p.id + 1 = 2
    rw [hc2 p hp]
  · intro p hp
    obtain ⟨ctx, hctx⟩ := hruns3 p hp
    refine ⟨ctx, ?_⟩
    have hres3' : r3.2 = ps.map (fun q => (q.id, f3 q)) := by
      rw [hr3, hres3]
      simp
    rw [hres3', getAttr_map_of_nodup ps f3 p hp hids, hctx]
    have hcnt : (clearCache r2.1).counts p.id = 1 := hc2 p hp
    rw [hcnt]

/-- Witness for C5: the caching test's single counting dummy process over
dataset `["x", "y"]`. -/
theorem claim_C5_caching_enabled_witness :
    (let a : Analyzer Nat := ⟨["x", "y"], [demoProc], fun _ => none, true⟩
     let r1 := a.run (emptyEngineState Nat)
     let r2 := a.run r1.1
     let r3 := a.run (clearCache r2.1)
     (∀ p ∈ [demoProc], r1.1.counts p.id = 1) ∧
     (∀ p ∈ [demoProc], ∃ ctx, getAttr r1.2 p.id = some (p.run 0 ctx)) ∧
     r2.2 = r1.2 ∧
     (∀ p ∈ [demoProc], r2.1.counts p.id = 1) ∧
     (∀ p ∈ [demoProc], r3.1.counts p.id = 2) ∧
     (∀ p ∈ [demoProc], ∃ ctx, getAttr r3.2 p.id = some (p.run 1 ctx))) :=
  claim_C5_caching_enabled ["x", "y"] [demoProc] (fun _ => none)
    (by decide) (by decide) (by decide)

/-- **C6** (pipeline caching disabled).  With `use_cache = False`, every
`run()` call invokes every process's computation unconditionally: after
two calls each counter is exactly 2, and the second bundle holds the
second-invocation results. -/
theorem claim_C6_caching_disabled {ρ : Type} (dataset : List String)
    (ps : List (Proc ρ)) (registry : String → Option (Proc ρ))
    (hdeps : ∀ p ∈ ps, p.deps = [])
    (hids : (ps.map Proc.id).Nodup) :
    let a : Analyzer ρ := ⟨dataset, ps, registry, false⟩
    let r1 := a.run (emptyEngineState ρ)
    let r2 := a.run r1.1
    (∀ p ∈ ps, r1.1.counts p.id = 1) ∧
    (∀ p ∈ ps, r2.1.counts p.id = 2) ∧
    (∀ p ∈ ps, ∃ ctx, getAttr r1.2 p.id = some (p.run 0 ctx)) ∧
    (∀ p ∈ ps, ∃ ctx, getAttr r2.2 p.id = some (p.run 1 ctx)) := by
  intro a r1 r2
  have hresolve : resolveProcs registry ps = ps :=
    resolveProcs_no_deps registry ps hdeps
  have hvac : ∀ st : EngineState ρ, (false : Bool) = true →
      (ps.map (fingerprint dataset)).Nodup ∧
      ∀ p ∈ ps, cacheLookup (fingerprint dataset p) st.cache = none := by
    intro st h
    exact absurd h (by simp)
  obtain ⟨f1, hres1, hcounts1, hruns1, _, _⟩ :=
    runFold_all_miss dataset false ps (emptyEngineState ρ) [] hids
      (hvac (emptyEngineState ρ))
  have hr1 : r1 = ps.foldl (stepProc dataset false) (emptyEngineState ρ, []) := by
    show runProcs dataset false (resolveProcs registry ps)
        (emptyEngineState ρ) = _
    rw [hresolve]
    rfl
  have hc1 : ∀ p ∈ ps, r1.1.counts p.id = 1 := by
    intro p hp
    rw [hr1, hcounts1 p.id, if_pos (List.mem_map_of_mem Proc.id hp)]
    rfl
  obtain ⟨f2, hres2, hcounts2, hruns2, _, _⟩ :=
    runFold_all_miss dataset false ps r1.1 [] hids (hvac r1.1)
  have hr2 : r2 = ps.foldl (stepProc dataset false) (r1.1, []) := by
    show runProcs dataset false (resolveProcs registry ps) r1.1 = _
    rw [hresolve]
    rfl
  refine ⟨hc1, ?_, ?_, ?_⟩
  · intro p hp
    rw [hr2, hcounts2 p.id, if_pos (List.mem_map_of_mem Proc.id hp),
      hc1 p hp]
  · intro p hp
    obtain ⟨ctx, hctx⟩ := hruns1 p hp
    refine ⟨ctx, ?_⟩
    have hres1' : r1.2 = ps.map (fun q => (q.id, f1 q)) := by
      rw [hr1, hres1]
      simp
    rw [hres1', getAttr_map_of_nodup ps f1 p hp hids, hctx]
    rfl
  · intro p hp
    obtain ⟨ctx, hctx⟩ := hruns2 p hp
    refine ⟨ctx, ?_⟩
    have hres2' : r2.2 = ps.map (fun q => (q.id, f2 q)) := by
      rw [hr2, hres2]
      simp
    rw [hres2', getAttr_map_of_nodup ps f2 p hp hids, hctx,
      hc1 p hp]

/-- Witness for C6: the disable-caching test's counting dummy process
over dataset `["a"]`. -/
theorem claim_C6_caching_disabled_witness :
    (let a : Analyzer Nat := ⟨["a"], [demoProc], fun _ => none, false⟩
     let r1 := a.run (emptyEngineState Nat)
     let r2 := a.run r1.1
     (∀ p ∈ [demoProc], r1.1.counts p.id = 1) ∧
     (∀ p ∈ [demoProc], r2.1.counts p.id = 2) ∧
     (∀ p ∈ [demoProc], ∃ ctx, getAttr r1.2 p.id = some (p.run 0 ctx)) ∧
     (∀ p ∈ [demoProc], ∃ ctx, getAttr r2.2 p.id = some (p.run 1 ctx))) :=
  claim_C6_caching_disabled ["a"] [demoProc] (fun _ => none)
    (by decide) (by decide)

/-- **C7** (implicit default-dependency injection).  Requesting only
ThemeAllocation makes the engine instantiate a default ThemeGeneration,
run it first, and expose both results; the allocation's themes are the
generation's output (same theme count). -/
theorem claim_C7_implicit_dependency (g : List String → List String)
    (dataset : List String) :
    let a : Analyzer AnalysisValue :=
      ⟨dataset, [themeAllocationProc], themeRegistry g dataset, false⟩
    let r := a.run (emptyEngineState AnalysisValue)
    resolveProcs a.registry a.processes
        = [themeGenerationProc g dataset, themeAllocationProc] ∧
    getAttr r.2 "theme_generation"
        = some (AnalysisValue.themes (g dataset)) ∧
    getAttr r.2 "theme_allocation"
        = some (AnalysisValue.allocation (g dataset)) ∧
    (∀ ts ts',
      getAttr r.2 "theme_generation" = some (AnalysisValue.themes ts) →
      getAttr r.2 "theme_allocation" = some (AnalysisValue.allocation ts') →
      ts'.length = ts.length) := by
  intro a r
  have hreg : themeRegistry g dataset "theme_generation"
      = some (themeGenerationProc g dataset) := by
    unfold themeRegistry
    rw [if_pos rfl]
  have hresolve : resolveProcs (themeRegistry g dataset)
      [themeAllocationProc]
      = [themeGenerationProc g dataset, themeAllocationProc] := by
    show [themeAllocationProc].foldl
        (addWithDeps (themeRegistry g dataset)) [] = _
    rw [List.foldl_cons, List.foldl_nil]
    unfold addWithDeps
    show ((themeAllocationProc.deps.foldl _ []) ++ [themeAllocationProc]) = _
    have hdeps : themeAllocationProc.deps = ["theme_generation"] := rfl
    rw [hdeps, List.foldl_cons, List.foldl_nil]
    have hany : ([] : List (Proc AnalysisValue)).any
        (fun q => q.id = "theme_generation") = false := rfl
    rw [if_neg (by rw [hany]; exact Bool.false_ne_true), hreg]
    rfl
  have hrun : r = runProcs dataset false
      [themeGenerationProc g dataset, themeAllocationProc]
      (emptyEngineState AnalysisValue) := by
    show runProcs dataset false
        (resolveProcs (themeRegistry g dataset) [themeAllocationProc])
        (emptyEngineState AnalysisValue) = _
    rw [hresolve]
  have hres : r.2
      = [("theme_generation", AnalysisValue.themes (g dataset)),
         ("theme_allocation", AnalysisValue.allocation (g dataset))] := by
    rw [hrun]
    rfl
  refine ⟨hresolve, ?_, ?_, ?_⟩
  · rw [hres]
    rfl
  · rw [hres]
    rfl
  · intro ts ts' h1 h2
    rw [hres] at h1 h2
    have e1 : AnalysisValue.themes (g dataset) = AnalysisValue.themes ts := by
      have : some (AnalysisValue.themes (g dataset))
          = some (AnalysisValue.themes ts) := by
        rw [← h1]
        rfl
      injection this
    have e2 : AnalysisValue.allocation (g dataset)
        = AnalysisValue.allocation ts' := by
      have : some (AnalysisValue.allocation (g dataset))
          = some (AnalysisValue.allocation ts') := by
        rw [← h2]
        rfl
      injection this
    injection e1 with e1
    injection e2 with e2
    rw [← e1, ← e2]

/-- Witness for C7 at a concrete generator and dataset: two themes are
generated and the allocation reuses exactly those two. -/
theorem claim_C7_implicit_dependency_witness :
    (let a : Analyzer AnalysisValue :=
      ⟨["r1", "r2"], [themeAllocationProc],
        themeRegistry (fun _ => ["Service", "Price"]) ["r1", "r2"], false⟩
     let r := a.run (emptyEngineState AnalysisValue)
     resolveProcs a.registry a.processes
        = [themeGenerationProc (fun _ => ["Service", "Price"]) ["r1", "r2"],
           themeAllocationProc] ∧
     getAttr r.2 "theme_generation"
        = some (AnalysisValue.themes
            ((fun _ => ["Service", "Price"]) ["r1", "r2"])) ∧
     getAttr r.2 "theme_allocation"
        = some (AnalysisValue.allocation
            ((fun _ => ["Service", "Price"]) ["r1", "r2"])) ∧
     (∀ ts ts',
       getAttr r.2 "theme_generation" = some (AnalysisValue.themes ts) →
       getAttr r.2 "theme_allocation"
          = some (AnalysisValue.allocation ts') →
       ts'.length = ts.length)) :=
  claim_C7_implicit_dependency (fun _ => ["Service", "Price"]) ["r1", "r2"]

/-- **C8** (result-bundle attribute errors).  Accessing the identity of a
process that was neither requested nor injected as a dependency yields
the attribute-not-found outcome (`none`); with zero processes the bundle
is empty and every attribute access fails. -/
theorem claim_C8_missing_attribute {ρ : Type} (a : Analyzer ρ)
    (st : EngineState ρ) (name : String)
    (hname : ¬ (name ∈ (resolveProcs a.registry a.processes).map Proc.id)) :
    getAttr (a.run st).2 name = none ∧
    (a.processes = [] → (a.run st).2 = [] ∧
      ∀ s, getAttr (a.run st).2 s = none) := by
  constructor
  · apply getAttr_eq_none
    intro pr hpr
    have hmem : pr ∈ ([] : List (String × ρ)) ∨
        pr.1 ∈ (resolveProcs a.registry a.processes).map Proc.id :=
      runFold_result_ids a.dataset a.useCache
        (resolveProcs a.registry a.processes) st [] pr hpr
    rcases hmem with h1 | h2
    · simp at h1
    · intro habs
      exact hname (habs ▸ h2)
  · intro hempty
    have hrun : (a.run st).2 = [] := by
      show (runProcs a.dataset a.useCache
          (resolveProcs a.registry a.processes) st).2 = []
      rw [hempty]
      rfl
    refine ⟨hrun, ?_⟩
    intro s
    rw [hrun]
    rfl

/-- Witness for C8: an engine with zero processes; accessing
`theme_generation` (or anything else) on its bundle fails. -/
theorem claim_C8_missing_attribute_witness :
    getAttr ((Analyzer.mk ["x"] ([] : List (Proc Nat)) (fun _ => none)
        true).run (emptyEngineState Nat)).2 "theme_generation" = none ∧
    ((Analyzer.mk ["x"] ([] : List (Proc Nat)) (fun _ => none)
          true).processes = [] →
      ((Analyzer.mk ["x"] ([] : List (Proc Nat)) (fun _ => none)
          true).run (emptyEngineState Nat)).2 = [] ∧
      ∀ s, getAttr ((Analyzer.mk ["x"] ([] : List (Proc Nat)) (fun _ => none)
          true).run (emptyEngineState Nat)).2 s = none) :=
  claim_C8_missing_attribute
    (Analyzer.mk ["x"] ([] : List (Proc Nat)) (fun _ => none) true)
    (emptyEngineState Nat) "theme_generation" (by decide)

theorem foldl_argmax_spec (row : List ℚ) :
    ∀ (l : List Nat) (b : Nat),
      (l.foldl (fun best j =>
          if row.getD best 0 < row.getD j 0 then j else best) b = b ∨
        l.foldl (fun best j =>
          if row.getD best 0 < row.getD j 0 then j else best) b ∈ l) ∧
      row.getD b 0 ≤ row.getD (l.foldl (fun best j =>
          if row.getD best 0 < row.getD j 0 then j else best) b) 0 ∧
      (∀ i ∈ l, row.getD i 0 ≤ row.getD (l.foldl (fun best j =>
          if row.getD best 0 < row.getD j 0 then j else best) b) 0) := by
  intro l
  induction l with
  | nil =>
    intro b
    refine ⟨Or.inl rfl, le_refl _, ?_⟩
    intro i hi
    simp at hi
  | cons x rest ih =>
    intro b
    simp only [List.foldl_cons]
    by_cases h : row.getD b 0 < row.getD x 0
    · rw [if_pos h]
      obtain ⟨hmem, hb, hall⟩ := ih x
      refine ⟨?_, le_trans (le_of_lt h) hb, ?_⟩
      · rcases hmem with h1 | h1
        · exact Or.inr (by rw [h1]; exact List.mem_cons_self _ _)
        · exact Or.inr (List.mem_cons_of_mem _ h1)
      · intro i hi
        rcases List.mem_cons.mp hi with h2 | h2
        · rw [h2]
          exact hb
        · exact hall i h2
    · rw [if_neg h]
      obtain ⟨hmem, hb, hall⟩ := ih b
      refine ⟨?_, hb, ?_⟩
      · rcases hmem with h1 | h1
        · exact Or.inl h1
        · exact Or.inr (List.mem_cons_of_mem _ h1)
      · intro i hi
        rcases List.mem_cons.mp hi with h2 | h2
        · rw [h2]
          exact le_trans (le_of_not_lt h) hb
        · exact hall i h2

theorem rowArgmax_lt (row : List ℚ) (hne : row ≠ []) :
    rowArgmax row < row.length := by
  unfold rowArgmax
  obtain ⟨hmem, _, _⟩ := foldl_argmax_spec row (List.range row.length) 0
  rcases hmem with h1 | h1
  · rw [h1]
    exact List.length_pos.mpr hne
  · exact List.mem_range.mp h1

theorem rowArgmax_max (row : List ℚ) (i : Nat) (hi : i < row.length) :
    row.getD i 0 ≤ row.getD (rowArgmax row) 0 := by
  unfold rowArgmax
  obtain ⟨_, _, hall⟩ := foldl_argmax_spec row (List.range row.length) 0
  exact hall i (List.mem_range.mpr hi)

theorem insertDesc_perm (row : List ℚ) (j : Nat) :
    ∀ l : List Nat, (insertDesc row j l).Perm (j :: l) := by
  intro l
  induction l with
  | nil => exact List.Perm.refl _
  | cons i rest ih =>
    unfold insertDesc
    by_cases h : row.getD i 0 < row.getD j 0
    · rw [if_pos h]
    · rw [if_neg h]
      exact (ih.cons i).trans (List.Perm.swap j i rest)

theorem sortIdxDesc_perm (row : List ℚ) :
    (sortIdxDesc row).Perm (List.range row.length) := by
  unfold sortIdxDesc
  generalize List.range row.length = l
  induction l with
  | nil => exact List.Perm.refl _
  | cons x rest ih =>
    simp only [List.foldr_cons]
    exact (insertDesc_perm row x _).trans (ih.cons x)

theorem insertDesc_sorted (row : List ℚ) (j : Nat) :
    ∀ l : List Nat,
      l.Pairwise (fun a b => row.getD b 0 ≤ row.getD a 0) →
      (insertDesc row j l).Pairwise
        (fun a b => row.getD b 0 ≤ row.getD a 0) := by
  intro l
  induction l with
  | nil =>
    intro _
    simp [insertDesc]
  | cons i rest ih =>
    intro hs
    obtain ⟨hi_all, hrest⟩ := List.pairwise_cons.mp hs
    unfold insertDesc
    by_cases h : row.getD i 0 < row.getD j 0
    · rw [if_pos h]
      apply List.pairwise_cons.mpr
      refine ⟨?_, hs⟩
      intro b hb
      rcases List.mem_cons.mp hb with h1 | h1
      · rw [h1]
        exact le_of_lt h
      · exact le_trans (hi_all b h1) (le_of_lt h)
    · rw [if_neg h]
      apply List.pairwise_cons.mpr
      refine ⟨?_, ih hrest⟩
      intro b hb
      have hb' : b ∈ j :: rest := (insertDesc_perm row j rest).mem_iff.mp hb
      rcases List.mem_cons.mp hb' with h1 | h1
      · rw [h1]
        exact le_of_not_lt h
      · exact hi_all b h1

theorem sortIdxDesc_sorted (row : List ℚ) :
    (sortIdxDesc row).Pairwise (fun a b => row.getD b 0 ≤ row.getD a 0) := by
  unfold sortIdxDesc
  generalize List.range row.length = l
  induction l with
  | nil => simp
  | cons x rest ih =>
    simp only [List.foldr_cons]
    exact insertDesc_sorted row x _ ih

/-- **C9** (ThemeAllocationResult.assign_single / assign_multi).  With a
similarity matrix, `assign_single` assigns each text the theme with the
maximal score of its row when that score meets the threshold and `None`
otherwise, indexed by the texts; `assign_multi(k)` returns per text the
`k` themes in descending order of the row's scores (the sorted index
list is a permutation of all indices, its scores are non-increasing, and
everything beyond the first `k` scores no higher than the selected
`k`). -/
theorem claim_C9_theme_allocation (res : ThemeAllocationResult)
    (t : Nat) (ht : t < res.texts.length) (k : Nat) :
    ((res.similarity.getD t []) ≠ [] →
      rowArgmax (res.similarity.getD t [])
        < (res.similarity.getD t []).length) ∧
    (∀ i, i < (res.similarity.getD t []).length →
      (res.similarity.getD t []).getD i 0
        ≤ (res.similarity.getD t []).getD
            (rowArgmax (res.similarity.getD t [])) 0) ∧
    (assignSingle res)[t]?
        = some (res.texts.getD t "", assignSingleAt res t) ∧
    (res.threshold ≤ (res.similarity.getD t []).getD
        (rowArgmax (res.similarity.getD t [])) 0 →
      assignSingleAt res t
        = res.themes[rowArgmax (res.similarity.getD t [])]?) ∧
    ((res.similarity.getD t []).getD
        (rowArgmax (res.similarity.getD t [])) 0 < res.threshold →
      assignSingleAt res t = none) ∧
    (sortIdxDesc (res.similarity.getD t [])).Perm
        (List.range (res.similarity.getD t []).length) ∧
    (sortIdxDesc (res.similarity.getD t [])).Pairwise
        (fun a b => (res.similarity.getD t []).getD b 0
          ≤ (res.similarity.getD t []).getD a 0) ∧
    (∀ b ∈ (sortIdxDesc (res.similarity.getD t [])).drop k,
      ∀ a ∈ (sortIdxDesc (res.similarity.getD t [])).take k,
        (res.similarity.getD t []).getD b 0
          ≤ (res.similarity.getD t []).getD a 0) ∧
    (assignMulti res k)[t]?
        = some (res.texts.getD t "", assignMultiAt res k t) := by
  refine ⟨rowArgmax_lt _, rowArgmax_max _, ?_, ?_, ?_,
    sortIdxDesc_perm _, sortIdxDesc_sorted _, ?_, ?_⟩
  · unfold assignSingle
    rw [List.getElem?_map, List.getElem?_range ht]
    rfl
  · intro hth
    unfold assignSingleAt
    rw [if_pos hth]
  · intro hth
    unfold assignSingleAt
    rw [if_neg (not_le.mpr hth)]
  · intro b hb a ha
    have hs := sortIdxDesc_sorted (res.similarity.getD t [])
    have hsplit : sortIdxDesc (res.similarity.getD t [])
        = (sortIdxDesc (res.similarity.getD t [])).take k
          ++ (sortIdxDesc (res.similarity.getD t [])).drop k :=
      (List.take_append_drop k _).symm
    rw [hsplit] at hs
    exact ((List.pairwise_append.mp hs).2.2 a ha b hb)
  · unfold assignMulti
    rw [List.getElem?_map, List.getElem?_range ht]
    rfl

/-- Witness for C9 at the tests' concrete data (scores scaled by ten to
stay integral): texts `d1, d2`, themes `A, B, C`, threshold `6`,
similarity `[[1,8,3],[5,2,7]]`; `assign_single` picks `B` then `C`, and
`assign_multi 2` returns `[B, C]` and `[C, A]`. -/
theorem claim_C9_theme_allocation_witness :
    ((([[1, 8, 3], [5, 2, 7]] : List (List ℚ)).getD 0 []) ≠ [] →
      rowArgmax (([[1, 8, 3], [5, 2, 7]] : List (List ℚ)).getD 0 [])
        < (([[1, 8, 3], [5, 2, 7]] : List (List ℚ)).getD 0 []).length) ∧
    assignSingleAt
        ⟨["d1", "d2"], ["A", "B", "C"], [0, 1],
          [[1, 8, 3], [5, 2, 7]], true, 6⟩ 0 = some "B" ∧
    assignSingleAt
        ⟨["d1", "d2"], ["A", "B", "C"], [0, 1],
          [[1, 8, 3], [5, 2, 7]], true, 6⟩ 1 = some "C" ∧
    assignMultiAt
        ⟨["d1", "d2"], ["A", "B", "C"], [0, 1],
          [[1, 8, 3], [5, 2, 7]], true, 6⟩ 2 0 = ["B", "C"] ∧
    assignMultiAt
        ⟨["d1", "d2"], ["A", "B", "C"], [0, 1],
          [[1, 8, 3], [5, 2, 7]], true, 6⟩ 2 1 = ["C", "A"] := by
  have h := claim_C9_theme_allocation
    ⟨["d1", "d2"], ["A", "B", "C"], [0, 1],
      [[1, 8, 3], [5, 2, 7]], true, 6⟩ 0 (by decide) 2
  exact ⟨h.1, by decide, by decide, by decide, by decide⟩

/-- **C10** (PKCE auth flow).  The flow attaches a
`Authorization: Bearer <token>` header only to requests whose host is
the configured core-API audience host, forwards requests to any other
host completely unmodified (in particular with no Authorization header
if they had none), and once a token is acquired it is reused for
subsequent matching requests before expiry without another
token-endpoint call. -/
theorem claim_C10_pkce_auth (st : PkceAuthState) (req : HttpRequest)
    (now : ℚ) (freshTok : String) (expiresIn : ℚ) :
    (¬ (req.host = st.audienceHost) →
      authFlow st req now freshTok expiresIn = (st, req, 0)) ∧
    (¬ (req.host = st.audienceHost) →
      (∀ h ∈ req.headers, ¬ (h.1 = "Authorization")) →
      ∀ h ∈ (authFlow st req now freshTok expiresIn).2.1.headers,
        ¬ (h.1 = "Authorization")) ∧
    (req.host = st.audienceHost →
      ∃ tok, (authFlow st req now freshTok expiresIn).2.1.headers
        = req.headers ++ [("Authorization", "Bearer " ++ tok)]) ∧
    (req.host = st.audienceHost → ∀ tok, st.accessToken = some tok →
      now < st.expiresAt →
      authFlow st req now freshTok expiresIn
        = (st, ⟨req.host,
            req.headers ++ [("Authorization", "Bearer " ++ tok)]⟩, 0)) ∧
    (req.host = st.audienceHost → st.accessToken = none →
      authFlow st req now freshTok expiresIn
        = (⟨st.audienceHost, some freshTok, now + expiresIn - 60⟩,
          ⟨req.host,
            req.headers ++ [("Authorization", "Bearer " ++ freshTok)]⟩,
          1)) ∧
    (req.host = st.audienceHost → st.accessToken = none →
      ∀ (req2 : HttpRequest) (now' : ℚ) (ft2 : String) (ei2 : ℚ),
        req2.host = st.audienceHost →
        now' < now + expiresIn - 60 →
        (authFlow (authFlow st req now freshTok expiresIn).1 req2 now'
            ft2 ei2).2.2 = 0 ∧
        (authFlow (authFlow st req now freshTok expiresIn).1 req2 now'
            ft2 ei2).2.1.headers
          = req2.headers
            ++ [("Authorization", "Bearer " ++ freshTok)]) := by
  have hrefresh : req.host = st.audienceHost → st.accessToken = none →
      authFlow st req now freshTok expiresIn
        = (⟨st.audienceHost, some freshTok, now + expiresIn - 60⟩,
          ⟨req.host,
            req.headers ++ [("Authorization", "Bearer " ++ freshTok)]⟩,
          1) := by
    intro hh htok
    unfold authFlow
    rw [if_pos hh, htok]
  have hsome : ∀ (st' : PkceAuthState) (req' : HttpRequest)
      (now2 : ℚ) (ft : String) (ei : ℚ) (tok : String),
      req'.host = st'.audienceHost → st'.accessToken = some tok →
      authFlow st' req' now2 ft ei
        = if now2 < st'.expiresAt then
            (st', ⟨req'.host,
              req'.headers ++ [("Authorization", "Bearer " ++ tok)]⟩, 0)
          else
            (⟨st'.audienceHost, some ft, now2 + ei - 60⟩,
              ⟨req'.host, req'.headers
                ++ [("Authorization", "Bearer " ++ ft)]⟩, 1) := by
    intro st' req' now2 ft ei tok hh htok
    unfold authFlow
    rw [if_pos hh, htok]
  refine ⟨?_, ?_, ?_, ?_, hrefresh, ?_⟩
  · intro hh
    unfold authFlow
    rw [if_neg hh]
  · intro hh hnone
    unfold authFlow
    rw [if_neg hh]
    exact hnone
  · intro hh
    cases htok : st.accessToken with
    | none =>
      rw [hrefresh hh htok]
      exact ⟨freshTok, rfl⟩
    | some tok =>
      rw [hsome st req now freshTok expiresIn tok hh htok]
      by_cases hexp : now < st.expiresAt
      · rw [if_pos hexp]
        exact ⟨tok, rfl⟩
      · rw [if_neg hexp]
        exact ⟨freshTok, rfl⟩
  · intro hh tok htok hexp
    rw [hsome st req now freshTok expiresIn tok hh htok, if_pos hexp]
  · intro hh htok req2 now' ft2 ei2 hh2 hexp2
    rw [hrefresh hh htok,
      hsome ⟨st.audienceHost, some freshTok, now + expiresIn - 60⟩
        req2 now' ft2 ei2 freshTok hh2 rfl,
      if_pos hexp2]
    exact ⟨rfl, rfl⟩

/-- Witness for C10 at the tests' data: audience host
`api.core.researchwiseai.com`, first matching request at `t = 2000`
acquires `tok` (expiry `2540`), a second matching request at the same
time reuses it with no further token call, and a request to
`other.example.com` passes through unchanged. -/
theorem claim_C10_pkce_auth_witness :
    (authFlow ⟨"api.core.researchwiseai.com", none, 0⟩
        ⟨"other.example.com", []⟩ 2000 "tok" 600
      = (⟨"api.core.researchwiseai.com", none, 0⟩,
          ⟨"other.example.com", []⟩, 0)) ∧
    (authFlow ⟨"api.core.researchwiseai.com", none, 0⟩
        ⟨"api.core.researchwiseai.com", []⟩ 2000 "tok" 600
      = (⟨"api.core.researchwiseai.com", some "tok", 2540⟩,
          ⟨"api.core.researchwiseai.com",
            [("Authorization", "Bearer tok")]⟩, 1)) ∧
    (authFlow (authFlow ⟨"api.core.researchwiseai.com", none, 0⟩
          ⟨"api.core.researchwiseai.com", []⟩ 2000 "tok" 600).1
        ⟨"api.core.researchwiseai.com", []⟩ 2000 "tok2" 600).2.2 = 0 := by
  have h := claim_C10_pkce_auth ⟨"api.core.researchwiseai.com", none, 0⟩
    ⟨"api.core.researchwiseai.com", []⟩ 2000 "tok" 600
  have hpass := (claim_C10_pkce_auth
    ⟨"api.core.researchwiseai.com", none, 0⟩
    ⟨"other.example.com", []⟩ 2000 "tok" 600).1 (by decide)
  refine ⟨hpass, ?_, ?_⟩
  · have hr := h.2.2.2.2.1 rfl rfl
    rw [hr]
    norm_num
    rfl
  · exact (h.2.2.2.2.2 rfl rfl ⟨"api.core.researchwiseai.com", []⟩
      2000 "tok2" 600 rfl (by norm_num)).1

end Pulse

